import Mathlib

/-!
# goconstants: the `Metadata` helpers

A shallow embedding of `metadata.go` (package `goconstants`) and the properties
of its helpers: `Validate`, `StringHelper`, `ToStringHelper`,
`FromStringHelper`, `IsValidHelper`, `MarshalJSONHelper` and
`UnmarshalJSONHelper`.

Conventions of the embedding:

* a Go `map[T]string` is `Option (GoMap T)`: `none` is the nil map, `some m` a
  map with pairwise distinct keys. The order of `m.entries` is the order in
  which a `range` statement visits the map; Go leaves that order unspecified,
  and the theorems quantify over every order;
* a Go `string` is a `GoString`, a sequence of bytes that need not be valid
  UTF-8; a string literal stands for the UTF-8 bytes of its text
  (`GoString.ofString`, inserted as a coercion);
* a Go `error` result is `Option GoError`, `none` being `nil`;
* a Go result tuple is a Lean pair, and the `*T` output parameter of
  `UnmarshalJSONHelper` is passed in and returned;
* the zero value of `T` is `default`, and the `%#v` rendering of a `T` is
  `GoSyntax.goSyntax`.
-/

namespace GoConstants

/-! ## Go values -/

/-- A Go `byte`. -/
abbrev Byte := Fin 256

/-- Go `utf8.AppendRune` on a scalar value: its UTF-8 bytes. -/
def utf8EncodeRune (r : Nat) : List Nat :=
  if r < 0x80 then [r]
  else if r < 0x800 then [0xC0 + r / 64, 0x80 + r % 64]
  else if r < 0x10000 then [0xE0 + r / 4096, 0x80 + r / 64 % 64, 0x80 + r % 64]
  else [0xF0 + r / 262144, 0x80 + r / 4096 % 64, 0x80 + r / 64 % 64, 0x80 + r % 64]

/-- A Go `string`: a sequence of bytes, which need not be valid UTF-8. -/
structure GoString where
  bytes : List Byte
  deriving DecidableEq, Repr

/-- Concatenation of Go strings, the operator `+`. -/
instance : Append GoString where
  append a b := ⟨a.bytes ++ b.bytes⟩

/-- The Go string that holds the UTF-8 encoding of a sequence of characters. -/
def GoString.ofChars (cs : List Char) : GoString :=
  ⟨(cs.flatMap (fun c => utf8EncodeRune c.toNat)).map Fin.ofNat⟩

/-- The Go string that a string literal denotes: the UTF-8 encoding of its text. -/
def GoString.ofString (s : String) : GoString :=
  GoString.ofChars s.data

instance : Coe String GoString where
  coe := GoString.ofString

/-- A non-nil Go `map[T]string`: the entries in iteration order, keys distinct. -/
structure GoMap (T : Type) where
  entries : List (T × GoString)
  nodup : (entries.map Prod.fst).Nodup

/-- Comma-ok lookup `m[k]` on a non-nil map. -/
def GoMap.get {T : Type} [DecidableEq T] (m : GoMap T) (k : T) : Option GoString :=
  (m.entries.find? (fun e => decide (e.1 = k))).map Prod.snd

/-- Builtin `len(m)` on a map value; the nil map has length 0. -/
def len {T : Type} : Option (GoMap T) → Nat
  | none => 0
  | some m => m.entries.length

/-- Comma-ok lookup `m[k]` on a map value; the nil map has no key. -/
def lookup {T : Type} [DecidableEq T] : Option (GoMap T) → T → Option GoString
  | none, _ => none
  | some m, k => m.get k

/-- The entries a `range` statement visits; none for the nil map. -/
def rangeOf {T : Type} : Option (GoMap T) → List (T × GoString)
  | none => []
  | some m => m.entries

/-- An error of `encoding/json` (a syntax error or a type mismatch); its text is not modelled. -/
inductive JSONError where
  | invalid
  deriving DecidableEq, Repr

/-- Go `error` values met in the package: the three sentinels of `Validate`,
errors of `encoding/json`, and errors built by `fmt.Errorf`: `errorf text` for
a format without `%w`, `text` being the formatted message, and
`errorfW text wrapped` for a format that ends in `%w`, `text` being the
formatted message up to that verb and `wrapped` its operand. -/
inductive GoError where
  | ErrNameMissing
  | ErrNoStringsDefined
  | ErrStringsIncoherence
  | json (e : JSONError)
  | errorf (text : GoString)
  | errorfW (text : GoString) (wrapped : GoError)
  deriving DecidableEq, Repr

/-- The message `err.Error()`; `none` where part of it is text of `encoding/json`. -/
def GoError.Error : GoError → Option GoString
  | .ErrNameMissing => some "the Name field is blank"
  | .ErrNoStringsDefined => some "neither Strings not JSONStrings are defined"
  | .ErrStringsIncoherence => some "Strings and JSONStrings does not have the same keys"
  | .json _ => none
  | .errorf text => some text
  | .errorfW text w => (GoError.Error w).map (fun s => text ++ s)

/-- The rendering of a value by the `%#v` verb of package `fmt`. -/
class GoSyntax (T : Type) where
  goSyntax : T → GoString

/-- An integer is rendered in decimal by `%#v`. -/
instance : GoSyntax Int where
  goSyntax n := GoString.ofString (toString n)

/-! ## The part of `encoding/json` the helpers call

A model of `json.Marshal` on a `string` and of `json.Unmarshal` into a
`*string`, after the behaviour of the Go standard library: strings are written
with HTML escaping, each byte that starts no valid UTF-8 sequence as the
escape of U+FFFD, and read with the escapes, the surrogate pairs and the
replacement of invalid UTF-8 that `unquote` performs. -/

/-- Go `utf8.DecodeRune`: the first rune of the bytes and its width; an
invalid or short sequence gives `(0xFFFD, 1)`, no byte gives `(0xFFFD, 0)`. -/
def utf8DecodeRune : List Nat → Nat × Nat
  | [] => (0xFFFD, 0)
  | p0 :: rest =>
    if p0 < 0x80 then (p0, 1)
    else if p0 < 0xC2 then (0xFFFD, 1)
    else if p0 < 0xE0 then
      match rest with
      | b1 :: _ =>
        if b1 < 0x80 ∨ 0xBF < b1 then (0xFFFD, 1)
        else (p0 % 32 * 64 + b1 % 64, 2)
      | _ => (0xFFFD, 1)
    else if p0 < 0xF0 then
      match rest with
      | b1 :: b2 :: _ =>
        if b1 < (if p0 = 0xE0 then 0xA0 else 0x80) ∨ (if p0 = 0xED then 0x9F else 0xBF) < b1 then
          (0xFFFD, 1)
        else if b2 < 0x80 ∨ 0xBF < b2 then (0xFFFD, 1)
        else (p0 % 16 * 4096 + b1 % 64 * 64 + b2 % 64, 3)
      | _ => (0xFFFD, 1)
    else if p0 < 0xF5 then
      match rest with
      | b1 :: b2 :: b3 :: _ =>
        if b1 < (if p0 = 0xF0 then 0x90 else 0x80) ∨ (if p0 = 0xF4 then 0x8F else 0xBF) < b1 then
          (0xFFFD, 1)
        else if b2 < 0x80 ∨ 0xBF < b2 then (0xFFFD, 1)
        else if b3 < 0x80 ∨ 0xBF < b3 then (0xFFFD, 1)
        else (p0 % 8 * 262144 + b1 % 64 * 4096 + b2 % 64 * 64 + b3 % 64, 4)
      | _ => (0xFFFD, 1)
    else (0xFFFD, 1)

/-- The table `hex` of `encoding/json`: the lower-case digit of a value below 16. -/
def hexDigit (n : Nat) : Nat :=
  if n < 10 then 48 + n else 87 + n

/-- The table `htmlSafeSet` of `encoding/json`: the ASCII bytes copied as they are. -/
def htmlSafe (b : Nat) : Bool :=
  decide (0x20 ≤ b) && decide (b < 0x80) && b != 34 && b != 38 && b != 60 && b != 62 && b != 92

/-- The bytes `encoding/json` writes for the UTF-8 encoding of one character
(theorem `jsonEncodeBytes_encodeRune`): a safe ASCII byte as it is, the other
ASCII bytes as an escape, the line and paragraph separators as `\u2028` and
`\u2029`, any other character as its UTF-8 bytes. -/
def jsonEncodeChar (c : Char) : List Nat :=
  let r := c.toNat
  if r < 0x80 then
    if htmlSafe r then [r]
    else if r = 92 ∨ r = 34 then [92, r]
    else if r = 8 then [92, 98]
    else if r = 12 then [92, 102]
    else if r = 10 then [92, 110]
    else if r = 13 then [92, 114]
    else if r = 9 then [92, 116]
    else [92, 117, 48, 48, hexDigit (r / 16), hexDigit (r % 16)]
  else if r = 0x2028 ∨ r = 0x2029 then [92, 117, 50, 48, 50, hexDigit (r % 16)]
  else utf8EncodeRune r

/-- The JSON text of a text, as byte values: what `json.Marshal` returns for
the Go string that holds its UTF-8 encoding (theorem `jsonMarshal_ofString`). -/
def jsonEncodeString (s : String) : List Nat :=
  34 :: (s.data.flatMap jsonEncodeChar ++ [34])

/-- The bytes `appendString` writes for an ASCII byte: a safe byte as it is,
the others as an escape. Backspace and form feed are written `\b` and `\f` as
Go 1.22 does; earlier releases write `\u0008` and `\u000c`. -/
def jsonEncodeASCII (b : Nat) : List Nat :=
  if htmlSafe b then [b]
  else if b = 92 ∨ b = 34 then [92, b]
  else if b = 8 then [92, 98]
  else if b = 12 then [92, 102]
  else if b = 10 then [92, 110]
  else if b = 13 then [92, 114]
  else if b = 9 then [92, 116]
  else [92, 117, 48, 48, hexDigit (b / 16), hexDigit (b % 16)]

/-- The loop of `appendString` (with HTML escaping) over the bytes of a Go
string still to read: an ASCII byte is written by `jsonEncodeASCII`; a byte
that starts no valid UTF-8 sequence is written as the escape `\ufffd` and
skipped; the line and paragraph separators are written as `\u2028` and
`\u2029`; the bytes of any other valid sequence are copied. Each step
consumes a byte, so a fuel of the number of bytes is enough. -/
def jsonEncodeBytes : Nat → List Nat → List Nat
  | 0, _ => []
  | _ + 1, [] => []
  | fuel + 1, b :: rest =>
    if b < 0x80 then jsonEncodeASCII b ++ jsonEncodeBytes fuel rest
    else
      let d := utf8DecodeRune (b :: rest)
      if d.1 = 0xFFFD ∧ d.2 = 1 then
        [92, 117, 102, 102, 102, 100] ++ jsonEncodeBytes fuel rest
      else if d.1 = 0x2028 ∨ d.1 = 0x2029 then
        [92, 117, 50, 48, 50, hexDigit (d.1 % 16)] ++
          jsonEncodeBytes fuel ((b :: rest).drop d.2)
      else (b :: rest).take d.2 ++ jsonEncodeBytes fuel ((b :: rest).drop d.2)

/-- Go `json.Marshal` applied to a string; it returns no error. The string may
hold invalid UTF-8, which is written as the escape of U+FFFD. -/
def jsonMarshal (s : GoString) : List Byte :=
  (34 :: (jsonEncodeBytes s.bytes.length (s.bytes.map Fin.val) ++ [34])).map Fin.ofNat

/-- The value of a hexadecimal digit byte. -/
def hexValue (b : Nat) : Option Nat :=
  if 48 ≤ b ∧ b ≤ 57 then some (b - 48)
  else if 97 ≤ b ∧ b ≤ 102 then some (b - 87)
  else if 65 ≤ b ∧ b ≤ 70 then some (b - 55)
  else none

/-- The value of four hexadecimal digits at the head of the bytes. -/
def hex4 : List Nat → Option Nat
  | a :: b :: c :: d :: _ =>
    match hexValue a, hexValue b, hexValue c, hexValue d with
    | some x, some y, some z, some w => some (x * 4096 + y * 256 + z * 16 + w)
    | _, _, _, _ => none
  | _ => none

/-- The function `getu4` of `encoding/json`: the value of a leading `\uXXXX`. -/
def getu4 : List Nat → Option Nat
  | 92 :: 117 :: rest => hex4 rest
  | _ => none

/-- Go `utf16.DecodeRune`: the code point of a surrogate pair, `0xFFFD` if it is not one. -/
def utf16DecodeRune (r1 r2 : Nat) : Nat :=
  if 0xD800 ≤ r1 ∧ r1 < 0xDC00 ∧ 0xDC00 ≤ r2 ∧ r2 < 0xE000 then
    (r1 - 0xD800) * 1024 + (r2 - 0xDC00) + 0x10000
  else 0xFFFD

/-- The body of a JSON string literal, after its opening quote: the scan of
`encoding/json` up to the closing quote together with `unquote`. It gives the
decoded characters and the bytes after the closing quote, or `none` when the
literal is malformed. Each step consumes a byte, so a fuel of the number of
bytes is enough. -/
def unquoteLoop : Nat → List Nat → List Char → Option (List Char × List Nat)
  | 0, _, _ => none
  | _ + 1, [], _ => none
  | fuel + 1, c :: rest, acc =>
    if c = 34 then some (acc, rest)
    else if c = 92 then
      match rest with
      | [] => none
      | e :: rest2 =>
        if e = 34 ∨ e = 92 ∨ e = 47 then unquoteLoop fuel rest2 (acc ++ [Char.ofNat e])
        else if e = 98 then unquoteLoop fuel rest2 (acc ++ [Char.ofNat 8])
        else if e = 102 then unquoteLoop fuel rest2 (acc ++ [Char.ofNat 12])
        else if e = 110 then unquoteLoop fuel rest2 (acc ++ [Char.ofNat 10])
        else if e = 114 then unquoteLoop fuel rest2 (acc ++ [Char.ofNat 13])
        else if e = 116 then unquoteLoop fuel rest2 (acc ++ [Char.ofNat 9])
        else if e = 117 then
          match hex4 rest2 with
          | none => none
          | some rr =>
            let rest3 := rest2.drop 4
            if 0xD800 ≤ rr ∧ rr < 0xE000 then
              match getu4 rest3 with
              | some rr1 =>
                let dec := utf16DecodeRune rr rr1
                if dec ≠ 0xFFFD then unquoteLoop fuel (rest3.drop 6) (acc ++ [Char.ofNat dec])
                else unquoteLoop fuel rest3 (acc ++ [Char.ofNat 0xFFFD])
              | none => unquoteLoop fuel rest3 (acc ++ [Char.ofNat 0xFFFD])
            else unquoteLoop fuel rest3 (acc ++ [Char.ofNat rr])
        else none
    else if c < 0x20 then none
    else if c < 0x80 then unquoteLoop fuel rest (acc ++ [Char.ofNat c])
    else
      let d := utf8DecodeRune (c :: rest)
      unquoteLoop fuel ((c :: rest).drop d.2) (acc ++ [Char.ofNat d.1])

/-- The function `isSpace` of `encoding/json`. -/
def isSpace (b : Nat) : Bool :=
  b == 32 || b == 9 || b == 13 || b == 10

/-- Skip leading JSON white space. -/
def skipSpace : List Nat → List Nat
  | [] => []
  | b :: rest => if isSpace b then skipSpace rest else b :: rest

/-- Go `json.Unmarshal(data, &target)` for a `string` target holding `old`: the
content of the target after the call and the error. A string literal sets the
target, the literal `null` leaves it as it is, and any other input is an
error. -/
def jsonUnmarshal (data : List Byte) (old : GoString) : GoString × Option JSONError :=
  match skipSpace (data.map Fin.val) with
  | 34 :: rest =>
    match unquoteLoop rest.length rest [] with
    | some (chars, after) =>
      if skipSpace after = [] then (GoString.ofChars chars, none)
      else (old, some JSONError.invalid)
    | none => (old, some JSONError.invalid)
  | 110 :: 117 :: 108 :: 108 :: after =>
    if skipSpace after = [] then (old, none) else (old, some JSONError.invalid)
  | _ => (old, some JSONError.invalid)

/-- The string that a byte input denotes when the input is one JSON string
literal, white space allowed before and after it; `none` for any other input. -/
def jsonStringLiteral (data : List Byte) : Option GoString :=
  match skipSpace (data.map Fin.val) with
  | 34 :: rest =>
    match unquoteLoop rest.length rest [] with
    | some (chars, after) => if skipSpace after = [] then some (GoString.ofChars chars) else none
    | none => none
  | _ => none

/-- The byte input is the JSON literal `null`, white space allowed before and after it. -/
def jsonNullLiteral (data : List Byte) : Bool :=
  match skipSpace (data.map Fin.val) with
  | 110 :: 117 :: 108 :: 108 :: after => decide (skipSpace after = [])
  | _ => false

/-- The text of the bytes of a Go string, each byte that starts no valid UTF-8
sequence read as U+FFFD. Each step consumes a byte, so a fuel of the number of
bytes is enough. -/
def utf8Lossy : Nat → List Nat → List Char
  | 0, _ => []
  | _ + 1, [] => []
  | fuel + 1, b :: rest =>
    let d := utf8DecodeRune (b :: rest)
    Char.ofNat d.1 :: utf8Lossy fuel ((b :: rest).drop d.2)

/-- The Go string with each byte that starts no valid UTF-8 sequence replaced
by the three bytes of U+FFFD. -/
def GoString.toValidUTF8 (s : GoString) : GoString :=
  GoString.ofChars (utf8Lossy s.bytes.length (s.bytes.map Fin.val))

/-- The Go string is valid UTF-8 (`utf8.ValidString`): it has no byte to
replace. Theorem `validUTF8_iff_text` shows that these are the UTF-8 encodings
of the texts. -/
def GoString.ValidUTF8 (s : GoString) : Prop :=
  s.toValidUTF8 = s

instance (s : GoString) : Decidable s.ValidUTF8 := by
  unfold GoString.ValidUTF8; infer_instance

/-! ## The `Metadata` type and its helpers -/

/-- The struct `Metadata[T]`. -/
structure Metadata (T : Type) where
  Name : GoString
  Strings : Option (GoMap T)
  JSONStrings : Option (GoMap T)

variable {T : Type} [DecidableEq T]

/-- The loop `for k := range meta.Strings` of `Validate`, over the entries still to visit. -/
def validateLoop (json : Option (GoMap T)) : List (T × GoString) → Option GoError
  | [] => none
  | (k, _) :: rest =>
    if (lookup json k).isNone then some GoError.ErrStringsIncoherence
    else validateLoop json rest

/-- The method `Validate`. -/
def Metadata.Validate (md : Metadata T) : Option GoError :=
  if md.Name = "" then some GoError.ErrNameMissing
  else if (md.Strings.isNone || len md.Strings == 0) &&
      (md.JSONStrings.isNone || len md.JSONStrings == 0) then
    some GoError.ErrNoStringsDefined
  else if md.Strings.isSome && md.JSONStrings.isSome then
    if len md.Strings ≠ len md.JSONStrings then some GoError.ErrStringsIncoherence
    else validateLoop md.JSONStrings (rangeOf md.Strings)
  else none

/-- The method `getStrings`: `Strings` if not nil, `JSONStrings` as fallback. -/
def Metadata.getStrings (md : Metadata T) : Option (GoMap T) :=
  if md.Strings.isSome then md.Strings else md.JSONStrings

/-- The method `getJSONStrings`: `JSONStrings` if not nil, `Strings` as fallback. -/
def Metadata.getJSONStrings (md : Metadata T) : Option (GoMap T) :=
  if md.JSONStrings.isSome then md.JSONStrings else md.Strings

/-- The method `toStringHelper`. -/
def Metadata.toStringHelper [GoSyntax T] (md : Metadata T) (v : T)
    (strings : Option (GoMap T)) : GoString × Option GoError :=
  match lookup strings v with
  | some s => (s, none)
  | none =>
    ("", some (GoError.errorf ("invalid " ++ md.Name ++ " value: " ++ GoSyntax.goSyntax v)))

/-- The loop `for k, v := range strings` of `fromStringHelper`, followed by the
return of the zero value when the loop ends without a match. -/
def fromStringLoop [Inhabited T] (representation : GoString) : List (T × GoString) → T × Bool
  | [] => (default, false)
  | (k, v) :: rest =>
    if representation = v then (k, true) else fromStringLoop representation rest

/-- The method `fromStringHelper`. -/
def Metadata.fromStringHelper [Inhabited T] (_md : Metadata T) (representation : GoString)
    (strings : Option (GoMap T)) : T × Bool :=
  fromStringLoop representation (rangeOf strings)

/-- The method `ToStringHelper`. -/
def Metadata.ToStringHelper [GoSyntax T] (md : Metadata T) (v : T) : GoString × Option GoError :=
  md.toStringHelper v md.getStrings

/-- The method `FromStringHelper`. -/
def Metadata.FromStringHelper [Inhabited T] (md : Metadata T) (representation : GoString) :
    T × Bool :=
  md.fromStringHelper representation md.getStrings

/-- The method `StringHelper`. -/
def Metadata.StringHelper [GoSyntax T] (md : Metadata T) (v : T) : GoString :=
  let (s, err) := md.ToStringHelper v
  if err.isSome then "" else s

/-- The method `IsValidHelper`. -/
def Metadata.IsValidHelper (md : Metadata T) (v : T) : Bool :=
  (lookup md.getStrings v).isSome

/-- The bytes of a `[]byte` result; the nil slice has none. -/
def bytesOf : Option (List Byte) → List Byte
  | none => []
  | some b => b

/-- The method `MarshalJSONHelper`; the first component is `none` for a nil slice. -/
def Metadata.MarshalJSONHelper [GoSyntax T] (md : Metadata T) (v : T) :
    Option (List Byte) × Option GoError :=
  match md.toStringHelper v md.getJSONStrings with
  | (_, some err) =>
    (none, some (GoError.errorfW ("unable to mashal " ++ md.Name ++ " type to json: ") err))
  | (representation, none) => (some (jsonMarshal representation), none)

/-- The method `UnmarshalJSONHelper`: `old` is the content of `*v` before the
call, the first component of the result its content after the call. -/
def Metadata.UnmarshalJSONHelper [Inhabited T] (md : Metadata T) (b : List Byte) (old : T) :
    T × Option GoError :=
  match jsonUnmarshal b "" with
  | (_, some err) =>
    (old, some (GoError.errorfW ("unable to unmashal " ++ md.Name ++ " type from json: ")
      (GoError.json err)))
  | (representation, none) =>
    match md.fromStringHelper representation md.getJSONStrings with
    | (_, false) =>
      (old, some (GoError.errorf ("unable to unmashal json, unknown value: " ++ representation)))
    | (value, true) => (value, none)

/-- The value `v` is a key of the map value `m`. -/
def IsKey (m : Option (GoMap T)) (v : T) : Prop :=
  v ∈ (rangeOf m).map Prod.fst

instance (m : Option (GoMap T)) (v : T) : Decidable (IsKey m v) := by
  unfold IsKey; infer_instance

/-! ## Sample tables -/

/-- The table of `metaGopherState` in `example_test.go`. -/
def gopherStrings : GoMap Int :=
  ⟨[(1, "Zzz"), (2, "Miam"), (3, "Coding"), (4, "Lol")], by decide⟩

/-- The variable `metaGopherState` of `example_test.go`. -/
def metaGopherState : Metadata Int :=
  ⟨"GopherState", some gopherStrings, none⟩

/-- A table whose two keys share one display string. -/
def sharedStrings : GoMap Int :=
  ⟨[(1, "a"), (2, "a")], by decide⟩

/-- A `Metadata` whose only table is `sharedStrings`. -/
def metaShared : Metadata Int :=
  ⟨"shared", some sharedStrings, none⟩

/-- The table `dummyStrings` of `TestValidate`. -/
def dummyStrings : GoMap Int :=
  ⟨[(1, "I'm a dummy value"), (2, "I'm another dummy value")], by decide⟩

/-- The table of `differentStringsKeysCase` in `TestValidate`. -/
def oupsStrings : GoMap Int :=
  ⟨[(1000, "oups"), (1001, "another oups")], by decide⟩

/-- The case `noNameCase` of `TestValidate`. -/
def noNameCase : Metadata Int :=
  ⟨"", some dummyStrings, none⟩

/-- The case `noStringsCase` of `TestValidate`. -/
def noStringsCase : Metadata Int :=
  ⟨"dummy", none, none⟩

/-- The case `differentStringsKeysCase` of `TestValidate`. -/
def differentStringsKeysCase : Metadata Int :=
  ⟨"dummy", some dummyStrings, some oupsStrings⟩

/-- The variable `cstMeta` of `metadata_test.go`. -/
def cstMeta : Metadata Int :=
  ⟨"cst",
    some ⟨[(1, "Homer Simpson"), (2, "Marge Simpson"), (3, "Bart Simpson"), (4, "Lisa Simpson"),
      (5, "Maggie Simpson")], by decide⟩,
    some ⟨[(1, "homer_simpson"), (2, "marge_simpson"), (3, "bart_simpson"), (4, "lisa_simpson"),
      (5, "maggie_simpson")], by decide⟩⟩

/-- A `Metadata` with a blank name and no table. -/
def metaBlank : Metadata Int :=
  ⟨"", none, none⟩

/-- A `Metadata` whose table gives key 0 the empty string. -/
def metaEmptyString : Metadata Int :=
  ⟨"state", some ⟨[(0, ""), (1, "on")], by decide⟩, none⟩

/-- The Go string `"a\xffb"`: the byte 0xFF between `a` and `b`, which is not valid UTF-8. -/
def rawString : GoString := ⟨[97, 255, 98]⟩

/-- A `Metadata` whose only table gives key 1 the string `rawString`. -/
def metaRaw : Metadata Int :=
  ⟨"raw", some ⟨[(1, rawString)], by decide⟩, none⟩

/-- A `Metadata` with `Strings` nil, whose only table is `JSONStrings`. -/
def metaJSONOnly : Metadata Int :=
  ⟨"one", none, some ⟨[(1, "one")], by decide⟩⟩

/-- The bytes of the JSON text `"homer_simpson"`, quotes included. -/
def homerBytes : List Byte :=
  [34, 104, 111, 109, 101, 114, 95, 115, 105, 109, 112, 115, 111, 110, 34]

/-- The four bytes of the JSON text `null`. -/
def nullBytes : List Byte := [110, 117, 108, 108]

/-- The two bytes of the JSON text `12`. -/
def numberBytes : List Byte := [49, 50]

/-- The eight bytes of the JSON text `"Coding"`, quotes included. -/
def codingBytes : List Byte := [34, 67, 111, 100, 105, 110, 103, 34]

/-- The bytes of the JSON text `"Walking on the moon"`, quotes included. -/
def moonBytes : List Byte :=
  [34, 87, 97, 108, 107, 105, 110, 103, 32, 111, 110, 32, 116, 104, 101, 32, 109, 111, 111,
    110, 34]

/-! ## The JSON text of a string decodes to the string -/

theorem char_toNat_valid (c : Char) :
    c.toNat < 0xD800 ∨ (0xDFFF < c.toNat ∧ c.toNat < 0x110000) := c.valid

theorem utf8EncodeRune_lt (r : Nat) (hr : r < 0x110000) : ∀ b ∈ utf8EncodeRune r, b < 256 := by
  intro b hb
  unfold utf8EncodeRune at hb
  split_ifs at hb <;> simp at hb <;> omega

theorem utf8Decode_encode (r : Nat) (h80 : 0x80 ≤ r)
    (hv : r < 0xD800 ∨ (0xDFFF < r ∧ r < 0x110000)) (more : List Nat) :
    utf8DecodeRune (utf8EncodeRune r ++ more) = (r, (utf8EncodeRune r).length) := by
  unfold utf8EncodeRune
  split_ifs with h1 h2 h3
  · omega
  · simp only [utf8DecodeRune, List.cons_append, List.nil_append, List.length_cons, List.length_nil]
    rw [if_neg (by omega), if_neg (by omega), if_pos (by omega), if_neg (by omega)]
    congr 1; omega
  · simp only [utf8DecodeRune, List.cons_append, List.nil_append, List.length_cons, List.length_nil]
    rw [if_neg (by omega), if_neg (by omega), if_neg (by omega), if_pos (by omega)]
    rw [if_neg (by split_ifs <;> omega), if_neg (by omega)]
    congr 1; omega
  · simp only [utf8DecodeRune, List.cons_append, List.nil_append, List.length_cons, List.length_nil]
    rw [if_neg (by omega), if_neg (by omega), if_neg (by omega), if_neg (by omega), if_pos (by omega)]
    rw [if_neg (by split_ifs <;> omega), if_neg (by omega), if_neg (by omega)]
    congr 1; omega

theorem unquote_ascii_escape (k : Nat) (hk : k < 0x80) (hs : htmlSafe k = false)
    (fuel : Nat) (more : List Nat) (acc : List Char) :
    unquoteLoop (fuel + 1) (jsonEncodeChar (Char.ofNat k) ++ more) acc =
      unquoteLoop fuel more (acc ++ [Char.ofNat k]) := by
  interval_cases k <;> first
    | (exfalso; revert hs; decide)
    | rfl

theorem unquote_line_sep (fuel : Nat) (more : List Nat) (acc : List Char) (k : Nat)
    (hk : k = 0x2028 ∨ k = 0x2029) :
    unquoteLoop (fuel + 1) (jsonEncodeChar (Char.ofNat k) ++ more) acc =
      unquoteLoop fuel more (acc ++ [Char.ofNat k]) := by
  rcases hk with rfl | rfl <;> rfl

theorem unquote_encodeChar (c : Char) (fuel : Nat) (more : List Nat) (acc : List Char) :
    unquoteLoop (fuel + 1) (jsonEncodeChar c ++ more) acc = unquoteLoop fuel more (acc ++ [c]) := by
  have hc : Char.ofNat c.toNat = c := Char.ofNat_toNat c
  by_cases h80 : c.toNat < 0x80
  · by_cases hs : htmlSafe c.toNat = true
    · have hb : 0x20 ≤ c.toNat ∧ c.toNat ≠ 34 ∧ c.toNat ≠ 92 := by
        simp [htmlSafe] at hs; omega
      have h20 : ¬ c.toNat < 0x20 := by omega
      simp only [jsonEncodeChar, if_pos h80, if_pos hs, List.cons_append, List.nil_append,
        unquoteLoop, if_neg hb.2.1, if_neg hb.2.2, if_neg h20, hc]
    · have := unquote_ascii_escape c.toNat h80 (by simpa using hs) fuel more acc
      rwa [hc] at this
  · by_cases hl : c.toNat = 0x2028 ∨ c.toNat = 0x2029
    · have := unquote_line_sep fuel more acc c.toNat hl
      rwa [hc] at this
    · have hv := char_toNat_valid c
      have henc : jsonEncodeChar c = utf8EncodeRune c.toNat := by
        simp only [jsonEncodeChar, if_neg h80, if_neg hl]
      have hdec := utf8Decode_encode c.toNat (by omega) hv more
      rw [henc]
      obtain ⟨b0, tl, hbt, hb0⟩ : ∃ b0 tl, utf8EncodeRune c.toNat = b0 :: tl ∧ 0xC2 ≤ b0 := by
        unfold utf8EncodeRune
        split_ifs
        · refine ⟨_, _, rfl, ?_⟩; omega
        · refine ⟨_, _, rfl, ?_⟩; omega
        · refine ⟨_, _, rfl, ?_⟩; omega
      rw [hbt] at hdec ⊢
      rw [List.cons_append] at hdec ⊢
      have e1 : ¬ b0 = 34 := by omega
      have e2 : ¬ b0 = 92 := by omega
      have e3 : ¬ b0 < 0x20 := by omega
      have e4 : ¬ b0 < 0x80 := by omega
      simp only [unquoteLoop, if_neg e1, if_neg e2, if_neg e3, if_neg e4, hdec, hc]
      congr 1
      rw [← List.cons_append, List.drop_left]

theorem unquote_encodeChars (cs : List Char) : ∀ (fuel : Nat) (tail : List Nat) (acc : List Char),
    cs.length < fuel →
    unquoteLoop fuel (cs.flatMap jsonEncodeChar ++ 34 :: tail) acc = some (acc ++ cs, tail) := by
  induction cs with
  | nil =>
    intro fuel tail acc hf
    obtain ⟨f, rfl⟩ : ∃ f, fuel = f + 1 := ⟨fuel - 1, by simp at hf; omega⟩
    simp [unquoteLoop]
  | cons c cs ih =>
    intro fuel tail acc hf
    obtain ⟨f, rfl⟩ : ∃ f, fuel = f + 1 := ⟨fuel - 1, by simp at hf; omega⟩
    rw [List.flatMap_cons, List.append_assoc, unquote_encodeChar, ih f tail _ (by simpa using hf)]
    simp

theorem jsonEncodeChar_length_pos (c : Char) : 0 < (jsonEncodeChar c).length := by
  unfold jsonEncodeChar utf8EncodeRune
  simp only
  split_ifs <;> simp

theorem length_le_flatMap_encode (cs : List Char) :
    cs.length ≤ (cs.flatMap jsonEncodeChar).length := by
  induction cs with
  | nil => simp
  | cons c cs ih =>
    have := jsonEncodeChar_length_pos c
    simp only [List.flatMap_cons, List.length_cons, List.length_append]
    omega

theorem hexDigit_lt (n : Nat) (h : n < 16) : hexDigit n < 256 := by
  unfold hexDigit; split_ifs <;> omega

theorem jsonEncodeChar_lt (c : Char) : ∀ b ∈ jsonEncodeChar c, b < 256 := by
  intro b hb
  have hv : c.toNat < 0x110000 := by
    have := char_toNat_valid c
    omega
  have h1 := hexDigit_lt (c.toNat % 16) (by omega)
  unfold jsonEncodeChar at hb
  simp only at hb
  split_ifs at hb with h80
  all_goals first
    | exact utf8EncodeRune_lt c.toNat hv b hb
    | (have h2 := hexDigit_lt (c.toNat / 16) (by omega)
       simp at hb
       omega)
    | (simp at hb
       omega)

theorem jsonEncodeString_lt (s : String) : ∀ b ∈ jsonEncodeString s, b < 256 := by
  intro b hb
  simp only [jsonEncodeString, List.mem_cons, List.mem_append, List.mem_flatMap,
    List.mem_singleton, List.not_mem_nil, or_false] at hb
  rcases hb with rfl | ⟨c, _, hc⟩ | rfl
  · omega
  · exact jsonEncodeChar_lt c b hc
  · omega

theorem map_val_ofNat (l : List Nat) (h : ∀ b ∈ l, b < 256) :
    (l.map (Fin.ofNat : Nat → Byte)).map Fin.val = l := by
  induction l with
  | nil => rfl
  | cons b l ih =>
    have hb := h b (by simp)
    simp only [List.map_cons, List.map_map] at ih ⊢
    rw [ih (fun x hx => h x (by simp [hx]))]
    congr 1
    show b % 256 = b
    omega

theorem ofChars_bytes_val (cs : List Char) :
    (GoString.ofChars cs).bytes.map Fin.val = cs.flatMap (fun c => utf8EncodeRune c.toNat) := by
  unfold GoString.ofChars
  apply map_val_ofNat
  intro b hb
  obtain ⟨c, _, hc⟩ := List.mem_flatMap.mp hb
  have hv : c.toNat < 0x110000 := by
    have := char_toNat_valid c
    omega
  exact utf8EncodeRune_lt c.toNat hv b hc

theorem utf8EncodeRune_length_pos (r : Nat) : 0 < (utf8EncodeRune r).length := by
  unfold utf8EncodeRune
  split_ifs <;> simp

theorem length_le_flatMap_utf8 (cs : List Char) :
    cs.length ≤ (cs.flatMap (fun c => utf8EncodeRune c.toNat)).length := by
  induction cs with
  | nil => simp
  | cons c cs ih =>
    have := utf8EncodeRune_length_pos c.toNat
    simp only [List.flatMap_cons, List.length_cons, List.length_append]
    omega

/-- One step of `appendString` on the UTF-8 bytes of a character writes what
`jsonEncodeChar` gives for the character. -/
theorem jsonEncodeBytes_encodeRune (c : Char) (fuel : Nat) (more : List Nat) :
    jsonEncodeBytes (fuel + 1) (utf8EncodeRune c.toNat ++ more) =
      jsonEncodeChar c ++ jsonEncodeBytes fuel more := by
  by_cases h80 : c.toNat < 0x80
  · have henc : utf8EncodeRune c.toNat = [c.toNat] := by
      simp only [utf8EncodeRune, if_pos h80]
    rw [henc]
    show jsonEncodeBytes (fuel + 1) (c.toNat :: more) = _
    simp only [jsonEncodeBytes, if_pos h80, jsonEncodeASCII, jsonEncodeChar]
  · have hv := char_toNat_valid c
    have hdec := utf8Decode_encode c.toNat (by omega) hv more
    obtain ⟨b0, tl, hbt, hb0, hlen⟩ : ∃ b0 tl, utf8EncodeRune c.toNat = b0 :: tl ∧ 0xC2 ≤ b0 ∧
        2 ≤ (b0 :: tl).length := by
      unfold utf8EncodeRune
      split_ifs
      · refine ⟨_, _, rfl, ?_, by simp⟩; omega
      · refine ⟨_, _, rfl, ?_, by simp⟩; omega
      · refine ⟨_, _, rfl, ?_, by simp⟩; omega
    rw [hbt] at hdec
    rw [List.cons_append] at hdec
    have e1 : ¬ b0 < 0x80 := by omega
    have e2 : ¬ (c.toNat = 0xFFFD ∧ (b0 :: tl).length = 1) := by omega
    have hdrop : List.drop (b0 :: tl).length (b0 :: (tl ++ more)) = more := by
      rw [← List.cons_append, List.drop_left]
    have htake : List.take (b0 :: tl).length (b0 :: (tl ++ more)) = b0 :: tl := by
      rw [← List.cons_append, List.take_left]
    rw [hbt, List.cons_append]
    by_cases hl : c.toNat = 0x2028 ∨ c.toNat = 0x2029
    · simp only [jsonEncodeBytes, if_neg e1, hdec, if_neg e2, if_pos hl, hdrop, jsonEncodeChar,
        if_neg h80]
    · simp only [jsonEncodeBytes, if_neg e1, hdec, if_neg e2, if_neg hl, hdrop, htake,
        jsonEncodeChar, if_neg h80, hbt]

theorem jsonEncodeBytes_utf8 (cs : List Char) : ∀ (fuel : Nat), cs.length ≤ fuel →
    jsonEncodeBytes fuel (cs.flatMap (fun c => utf8EncodeRune c.toNat)) =
      cs.flatMap jsonEncodeChar := by
  induction cs with
  | nil =>
    intro fuel _
    cases fuel <;> rfl
  | cons c cs ih =>
    intro fuel hf
    obtain ⟨f, rfl⟩ : ∃ f, fuel = f + 1 := ⟨fuel - 1, by simp at hf; omega⟩
    rw [List.flatMap_cons, jsonEncodeBytes_encodeRune, ih f (by simpa using hf),
      List.flatMap_cons]

/-- On the Go string that holds a text, `json.Marshal` returns the JSON text of the text. -/
theorem jsonMarshal_ofString (s : String) :
    jsonMarshal (GoString.ofString s) = (jsonEncodeString s).map Fin.ofNat := by
  unfold jsonMarshal GoString.ofString
  rw [ofChars_bytes_val, jsonEncodeBytes_utf8 s.data _ (by
    rw [← List.length_map (GoString.ofChars s.data).bytes Fin.val, ofChars_bytes_val]
    exact length_le_flatMap_utf8 s.data)]
  rfl

/-- Decoding the JSON text of a valid UTF-8 string gives the string back. -/
theorem jsonUnmarshal_jsonMarshal (s : String) (old : GoString) :
    jsonUnmarshal (jsonMarshal (GoString.ofString s)) old = (GoString.ofString s, none) := by
  have hlen : s.data.length < (s.data.flatMap jsonEncodeChar ++ [34]).length := by
    have := length_le_flatMap_encode s.data
    rw [List.length_append, List.length_singleton]; omega
  have h := unquote_encodeChars s.data _ [] [] hlen
  have hs : skipSpace (jsonEncodeString s) = 34 :: (s.data.flatMap jsonEncodeChar ++ [34]) := rfl
  rw [jsonMarshal_ofString]
  unfold jsonUnmarshal
  rw [map_val_ofNat _ (jsonEncodeString_lt s), hs]
  simp only [h, skipSpace, List.nil_append, if_true, GoString.ofString]

/-! ## The fuel of `unquoteLoop` -/

theorem utf8DecodeRune_width_pos (c : Nat) (rest : List Nat) :
    1 ≤ (utf8DecodeRune (c :: rest)).2 := by
  simp only [utf8DecodeRune]
  split_ifs
  all_goals first
    | exact Nat.le_refl 1
    | (split <;> first | exact Nat.le_refl 1 | (split_ifs <;> simp))

theorem unquoteLoop_succ : ∀ (n : Nat) (s : List Nat) (acc : List Char), s.length ≤ n →
    unquoteLoop (n + 1) s acc = unquoteLoop n s acc
  | 0, s, acc, h => by
    have hs : s = [] := List.length_eq_zero.mp (by omega)
    subst hs; rfl
  | n + 1, [], acc, _ => rfl
  | n + 1, c :: rest, acc, h => by
    have ih := fun s acc hs => unquoteLoop_succ n s acc hs
    simp only [List.length_cons] at h
    have hrest : rest.length ≤ n := by omega
    simp only [unquoteLoop]
    by_cases h1 : c = 34
    · simp only [if_pos h1]
    simp only [if_neg h1]
    by_cases h2 : c = 92
    · simp only [if_pos h2]
      cases rest with
      | nil => rfl
      | cons e rest2 =>
        simp only [List.length_cons] at hrest
        have h2l : rest2.length ≤ n := by omega
        have h4l : (rest2.drop 4).length ≤ n := by rw [List.length_drop]; omega
        have h6l : ((rest2.drop 4).drop 6).length ≤ n := by
          rw [List.length_drop, List.length_drop]; omega
        simp only [ih rest2 _ h2l, ih _ _ h4l, ih _ _ h6l]
    simp only [if_neg h2]
    by_cases h3 : c < 0x20
    · simp only [if_pos h3]
    simp only [if_neg h3]
    by_cases h4 : c < 0x80
    · simp only [if_pos h4]
      exact ih rest _ hrest
    simp only [if_neg h4]
    have hw := utf8DecodeRune_width_pos c rest
    apply ih
    rw [List.length_drop, List.length_cons]
    omega

/-- A fuel of the number of bytes is enough: more fuel gives `unquoteLoop` the same result. -/
theorem unquoteLoop_fuel (s : List Nat) (acc : List Char) (fuel : Nat) (h : s.length ≤ fuel) :
    unquoteLoop fuel s acc = unquoteLoop s.length s acc := by
  induction fuel with
  | zero =>
    have h0 : s.length = 0 := by omega
    rw [h0]
  | succ n ih =>
    by_cases hn : s.length ≤ n
    · rw [unquoteLoop_succ n s acc hn, ih hn]
    · have h1 : s.length = n + 1 := by omega
      rw [h1]

/-! ## The three kinds of input of `json.Unmarshal` -/

theorem jsonUnmarshal_of_literal (b : List Byte) (s old : GoString)
    (h : jsonStringLiteral b = some s) : jsonUnmarshal b old = (s, none) := by
  unfold jsonStringLiteral at h
  unfold jsonUnmarshal
  split at h
  · rename_i rest hrest
    rw [hrest]
    simp only
    split at h
    · rename_i chars after hloop
      split_ifs at h with hs
      · rw [if_pos hs]
        simp only [Option.some.injEq] at h
        rw [h]
    · simp at h
  · simp at h

theorem jsonUnmarshal_of_null (b : List Byte) (old : GoString)
    (h : jsonNullLiteral b = true) : jsonUnmarshal b old = (old, none) := by
  unfold jsonNullLiteral at h
  unfold jsonUnmarshal
  split at h
  · rename_i after hafter
    rw [hafter]
    simp only [decide_eq_true_eq] at h ⊢
    rw [if_pos h]
  · simp at h

theorem jsonUnmarshal_of_other (b : List Byte) (old : GoString)
    (hs : jsonStringLiteral b = none) (hn : jsonNullLiteral b = false) :
    jsonUnmarshal b old = (old, some JSONError.invalid) := by
  unfold jsonStringLiteral at hs
  unfold jsonNullLiteral at hn
  unfold jsonUnmarshal
  split
  · rename_i rest hrest
    rw [hrest] at hs
    simp only at hs
    split
    · rename_i chars after hloop
      rw [hloop] at hs
      simp only at hs
      split_ifs with hsp
      · rw [if_pos hsp] at hs
        simp at hs
      · rfl
    · rfl
  · rename_i after hafter
    rw [hafter] at hn
    simp only [decide_eq_false_iff_not] at hn
    rw [if_neg hn]
  · rfl

theorem jsonUnmarshal_error (b : List Byte) (old : GoString) (e : JSONError)
    (h : (jsonUnmarshal b old).2 = some e) : (jsonUnmarshal b old).1 = old := by
  unfold jsonUnmarshal at h ⊢
  split
  · split
    · split_ifs with hsp
      · rename_i rest hrest _ chars after hloop
        rw [hrest] at h
        simp [hloop, hsp] at h
      · rfl
    · rfl
  · split_ifs <;> rfl
  · rfl

/-! ## What `json.Unmarshal` reads back from `json.Marshal` -/

/-- One step of the decoder on what `appendString` wrote for an ASCII byte. -/
theorem unquote_encodeASCII (b : Nat) (hb : b < 0x80) (fuel : Nat) (more : List Nat)
    (acc : List Char) :
    unquoteLoop (fuel + 1) (jsonEncodeASCII b ++ more) acc =
      unquoteLoop fuel more (acc ++ [Char.ofNat b]) := by
  interval_cases b <;> rfl

/-- A valid sequence at the head of the bytes is decoded from its own bytes alone. -/
theorem utf8DecodeRune_take (l Y : List Nat)
    (hd : ¬ ((utf8DecodeRune l).1 = 0xFFFD ∧ (utf8DecodeRune l).2 = 1)) (hne : l ≠ []) :
    utf8DecodeRune (l.take (utf8DecodeRune l).2 ++ Y) = utf8DecodeRune l ∧
      (l.take (utf8DecodeRune l).2).length = (utf8DecodeRune l).2 := by
  rcases l with _ | ⟨p0, rest⟩
  · exact absurd rfl hne
  by_cases h1 : p0 < 0x80
  · have e : utf8DecodeRune (p0 :: rest) = (p0, 1) := by
      simp only [utf8DecodeRune, if_pos h1]
    rw [e]
    refine ⟨?_, rfl⟩
    show utf8DecodeRune (p0 :: Y) = _
    simp only [utf8DecodeRune, if_pos h1]
  by_cases h2 : p0 < 0xC2
  · exfalso; apply hd
    simp only [utf8DecodeRune, if_neg h1, if_pos h2, and_self]
  by_cases h3 : p0 < 0xE0
  · rcases rest with _ | ⟨b1, t⟩
    · exfalso; apply hd
      simp only [utf8DecodeRune, if_neg h1, if_neg h2, if_pos h3, and_self]
    · by_cases hb : b1 < 0x80 ∨ 0xBF < b1
      · exfalso; apply hd
        simp only [utf8DecodeRune, if_neg h1, if_neg h2, if_pos h3, if_pos hb, and_self]
      · have e : utf8DecodeRune (p0 :: b1 :: t) = (p0 % 32 * 64 + b1 % 64, 2) := by
          simp only [utf8DecodeRune, if_neg h1, if_neg h2, if_pos h3, if_neg hb]
        rw [e]
        refine ⟨?_, rfl⟩
        show utf8DecodeRune (p0 :: b1 :: Y) = _
        simp only [utf8DecodeRune, if_neg h1, if_neg h2, if_pos h3, if_neg hb]
  by_cases h4 : p0 < 0xF0
  · rcases rest with _ | ⟨b1, _ | ⟨b2, t⟩⟩
    · exfalso; apply hd
      simp only [utf8DecodeRune, if_neg h1, if_neg h2, if_neg h3, if_pos h4, and_self]
    · exfalso; apply hd
      simp only [utf8DecodeRune, if_neg h1, if_neg h2, if_neg h3, if_pos h4, and_self]
    · by_cases hb1 : b1 < (if p0 = 0xE0 then 0xA0 else 0x80) ∨
          (if p0 = 0xED then 0x9F else 0xBF) < b1
      · exfalso; apply hd
        simp only [utf8DecodeRune, if_neg h1, if_neg h2, if_neg h3, if_pos h4, if_pos hb1,
          and_self]
      · by_cases hb2 : b2 < 0x80 ∨ 0xBF < b2
        · exfalso; apply hd
          simp only [utf8DecodeRune, if_neg h1, if_neg h2, if_neg h3, if_pos h4, if_neg hb1,
            if_pos hb2, and_self]
        · have e : utf8DecodeRune (p0 :: b1 :: b2 :: t) =
              (p0 % 16 * 4096 + b1 % 64 * 64 + b2 % 64, 3) := by
            simp only [utf8DecodeRune, if_neg h1, if_neg h2, if_neg h3, if_pos h4, if_neg hb1,
              if_neg hb2]
          rw [e]
          refine ⟨?_, rfl⟩
          show utf8DecodeRune (p0 :: b1 :: b2 :: Y) = _
          simp only [utf8DecodeRune, if_neg h1, if_neg h2, if_neg h3, if_pos h4, if_neg hb1,
            if_neg hb2]
  by_cases h5 : p0 < 0xF5
  · rcases rest with _ | ⟨b1, _ | ⟨b2, _ | ⟨b3, t⟩⟩⟩
    · exfalso; apply hd
      simp only [utf8DecodeRune, if_neg h1, if_neg h2, if_neg h3, if_neg h4, if_pos h5, and_self]
    · exfalso; apply hd
      simp only [utf8DecodeRune, if_neg h1, if_neg h2, if_neg h3, if_neg h4, if_pos h5, and_self]
    · exfalso; apply hd
      simp only [utf8DecodeRune, if_neg h1, if_neg h2, if_neg h3, if_neg h4, if_pos h5, and_self]
    · by_cases hb1 : b1 < (if p0 = 0xF0 then 0x90 else 0x80) ∨
          (if p0 = 0xF4 then 0x8F else 0xBF) < b1
      · exfalso; apply hd
        simp only [utf8DecodeRune, if_neg h1, if_neg h2, if_neg h3, if_neg h4, if_pos h5,
          if_pos hb1, and_self]
      · by_cases hb2 : b2 < 0x80 ∨ 0xBF < b2
        · exfalso; apply hd
          simp only [utf8DecodeRune, if_neg h1, if_neg h2, if_neg h3, if_neg h4, if_pos h5,
            if_neg hb1, if_pos hb2, and_self]
        · by_cases hb3 : b3 < 0x80 ∨ 0xBF < b3
          · exfalso; apply hd
            simp only [utf8DecodeRune, if_neg h1, if_neg h2, if_neg h3, if_neg h4, if_pos h5,
              if_neg hb1, if_neg hb2, if_pos hb3, and_self]
          · have e : utf8DecodeRune (p0 :: b1 :: b2 :: b3 :: t) =
                (p0 % 8 * 262144 + b1 % 64 * 4096 + b2 % 64 * 64 + b3 % 64, 4) := by
              simp only [utf8DecodeRune, if_neg h1, if_neg h2, if_neg h3, if_neg h4, if_pos h5,
                if_neg hb1, if_neg hb2, if_neg hb3]
            rw [e]
            refine ⟨?_, rfl⟩
            show utf8DecodeRune (p0 :: b1 :: b2 :: b3 :: Y) = _
            simp only [utf8DecodeRune, if_neg h1, if_neg h2, if_neg h3, if_neg h4, if_pos h5,
              if_neg hb1, if_neg hb2, if_neg hb3]
  · exfalso; apply hd
    simp only [utf8DecodeRune, if_neg h1, if_neg h2, if_neg h3, if_neg h4, if_neg h5, and_self]

/-- One step of the decoder on what one step of `appendString` wrote. -/
theorem unquote_encodeBytes_step (b : Nat) (rest : List Nat) (f g : Nat) (tail : List Nat)
    (acc : List Char) :
    unquoteLoop (g + 1) (jsonEncodeBytes (f + 1) (b :: rest) ++ 34 :: tail) acc =
      unquoteLoop g
        (jsonEncodeBytes f ((b :: rest).drop (utf8DecodeRune (b :: rest)).2) ++ 34 :: tail)
        (acc ++ [Char.ofNat (utf8DecodeRune (b :: rest)).1]) := by
  by_cases h1 : b < 0x80
  · have e : utf8DecodeRune (b :: rest) = (b, 1) := by
      simp only [utf8DecodeRune, if_pos h1]
    rw [e]
    simp only [jsonEncodeBytes, if_pos h1, List.drop_succ_cons, List.drop_zero, List.append_assoc]
    exact unquote_encodeASCII b h1 g _ acc
  · by_cases hinv : (utf8DecodeRune (b :: rest)).1 = 0xFFFD ∧ (utf8DecodeRune (b :: rest)).2 = 1
    · simp only [jsonEncodeBytes, if_neg h1, if_pos hinv]
      rw [hinv.1, hinv.2]
      rfl
    · by_cases hl : (utf8DecodeRune (b :: rest)).1 = 0x2028 ∨
          (utf8DecodeRune (b :: rest)).1 = 0x2029
      · simp only [jsonEncodeBytes, if_neg h1, if_neg hinv, if_pos hl]
        rcases hl with hl | hl <;> rw [hl] <;> rfl
      · simp only [jsonEncodeBytes, if_neg h1, if_neg hinv, if_neg hl, List.append_assoc]
        obtain ⟨hdec, hlen⟩ := utf8DecodeRune_take (b :: rest)
          (jsonEncodeBytes f ((b :: rest).drop (utf8DecodeRune (b :: rest)).2) ++ 34 :: tail)
          hinv (List.cons_ne_nil _ _)
        have hw := utf8DecodeRune_width_pos b rest
        obtain ⟨n, hn⟩ : ∃ n, (utf8DecodeRune (b :: rest)).2 = n + 1 :=
          ⟨(utf8DecodeRune (b :: rest)).2 - 1, by omega⟩
        have htk : List.take (utf8DecodeRune (b :: rest)).2 (b :: rest) = b :: List.take n rest := by
          rw [hn, List.take_succ_cons]
        rw [htk] at hdec hlen ⊢
        rw [List.cons_append] at hdec ⊢
        have e1 : ¬ b = 34 := by omega
        have e2 : ¬ b = 92 := by omega
        have e3 : ¬ b < 0x20 := by omega
        simp only [unquoteLoop, if_neg e1, if_neg e2, if_neg e3, if_neg h1, hdec]
        congr 1
        rw [← List.cons_append, ← hlen, List.drop_left]

/-- The decoder reads back, from what `appendString` wrote for any bytes, their lossy text. -/
theorem unquote_encodeBytes : ∀ (f : Nat) (bs : List Nat), bs.length ≤ f →
    ∀ (g : Nat) (tail : List Nat) (acc : List Char), (utf8Lossy f bs).length < g →
      unquoteLoop g (jsonEncodeBytes f bs ++ 34 :: tail) acc = some (acc ++ utf8Lossy f bs, tail)
  | 0, bs, _, g, tail, acc, hg => by
    obtain ⟨g1, rfl⟩ : ∃ g1, g = g1 + 1 := ⟨g - 1, by simp only [utf8Lossy] at hg; omega⟩
    simp [jsonEncodeBytes, utf8Lossy, unquoteLoop]
  | f + 1, [], _, g, tail, acc, hg => by
    obtain ⟨g1, rfl⟩ : ∃ g1, g = g1 + 1 := ⟨g - 1, by simp only [utf8Lossy] at hg; omega⟩
    simp [jsonEncodeBytes, utf8Lossy, unquoteLoop]
  | f + 1, b :: rest, hf, g, tail, acc, hg => by
    have hw := utf8DecodeRune_width_pos b rest
    simp only [utf8Lossy, List.length_cons] at hg
    obtain ⟨g1, rfl⟩ : ∃ g1, g = g1 + 1 := ⟨g - 1, by omega⟩
    have hlen : ((b :: rest).drop (utf8DecodeRune (b :: rest)).2).length ≤ f := by
      rw [List.length_drop]
      simp only [List.length_cons] at hf ⊢
      omega
    rw [unquote_encodeBytes_step,
      unquote_encodeBytes f _ hlen g1 tail _ (by omega)]
    simp only [utf8Lossy, List.append_assoc, List.singleton_append]

theorem jsonEncodeASCII_lt (b : Nat) (hb : b < 0x80) : ∀ x ∈ jsonEncodeASCII b, x < 256 := by
  intro x hx
  have h1 := hexDigit_lt (b / 16) (by omega)
  have h2 := hexDigit_lt (b % 16) (by omega)
  unfold jsonEncodeASCII at hx
  split_ifs at hx <;> simp at hx <;> omega

theorem jsonEncodeBytes_lt : ∀ (f : Nat) (bs : List Nat), (∀ b ∈ bs, b < 256) →
    ∀ x ∈ jsonEncodeBytes f bs, x < 256
  | 0, _, _, x, hx => by simp [jsonEncodeBytes] at hx
  | f + 1, [], _, x, hx => by simp [jsonEncodeBytes] at hx
  | f + 1, b :: rest, hbs, x, hx => by
    have hrest : ∀ y ∈ rest, y < 256 := fun y hy => hbs y (List.mem_cons_of_mem _ hy)
    have hdrop : ∀ n, ∀ y ∈ (b :: rest).drop n, y < 256 :=
      fun n y hy => hbs y (List.mem_of_mem_drop hy)
    have h3 := hexDigit_lt ((utf8DecodeRune (b :: rest)).1 % 16) (by omega)
    simp only [jsonEncodeBytes] at hx
    split_ifs at hx with h1 h2 h4
    · rcases List.mem_append.mp hx with h | h
      · exact jsonEncodeASCII_lt b h1 x h
      · exact jsonEncodeBytes_lt f rest hrest x h
    · rcases List.mem_append.mp hx with h | h
      · simp at h; omega
      · exact jsonEncodeBytes_lt f rest hrest x h
    · rcases List.mem_append.mp hx with h | h
      · simp at h; omega
      · exact jsonEncodeBytes_lt f _ (hdrop _) x h
    · rcases List.mem_append.mp hx with h | h
      · exact hbs x (List.mem_of_mem_take h)
      · exact jsonEncodeBytes_lt f _ (hdrop _) x h

theorem bytes_val_lt (s : GoString) : ∀ b ∈ s.bytes.map Fin.val, b < 256 := by
  intro b hb
  obtain ⟨x, _, rfl⟩ := List.mem_map.mp hb
  exact x.isLt

/-- What `json.Marshal` writes for any Go string is a JSON string literal; it
denotes the string with its invalid bytes replaced by U+FFFD. -/
theorem jsonStringLiteral_jsonMarshal_any (s : GoString) :
    jsonStringLiteral (jsonMarshal s) = some s.toValidUTF8 := by
  have hlt : ∀ b ∈ 34 :: (jsonEncodeBytes s.bytes.length (s.bytes.map Fin.val) ++ [34]),
      b < 256 := by
    intro b hb
    simp only [List.mem_cons, List.mem_append, List.mem_singleton, List.not_mem_nil,
      or_false] at hb
    rcases hb with rfl | h | rfl
    · omega
    · exact jsonEncodeBytes_lt _ _ (bytes_val_lt s) b h
    · omega
  have hskip : ∀ l : List Nat, skipSpace (34 :: l) = 34 :: l := fun _ => rfl
  have h := unquote_encodeBytes s.bytes.length (s.bytes.map Fin.val) (by simp)
    ((jsonEncodeBytes s.bytes.length (s.bytes.map Fin.val) ++ [34]).length +
      (utf8Lossy s.bytes.length (s.bytes.map Fin.val)).length + 1) [] [] (by omega)
  rw [unquoteLoop_fuel _ _ _ (by omega)] at h
  unfold jsonStringLiteral jsonMarshal
  rw [map_val_ofNat _ hlt, hskip]
  simp only [h, skipSpace, List.nil_append, if_true, GoString.toValidUTF8]

theorem utf8Decode_encode_char (c : Char) (more : List Nat) :
    utf8DecodeRune (utf8EncodeRune c.toNat ++ more) =
      (c.toNat, (utf8EncodeRune c.toNat).length) := by
  by_cases h80 : c.toNat < 0x80
  · have henc : utf8EncodeRune c.toNat = [c.toNat] := by
      simp only [utf8EncodeRune, if_pos h80]
    rw [henc]
    show utf8DecodeRune (c.toNat :: more) = _
    simp only [utf8DecodeRune, if_pos h80, List.length_singleton]
  · exact utf8Decode_encode c.toNat (by omega) (char_toNat_valid c) more

theorem utf8Lossy_utf8 (cs : List Char) : ∀ (f : Nat), cs.length ≤ f →
    utf8Lossy f (cs.flatMap (fun c => utf8EncodeRune c.toNat)) = cs := by
  induction cs with
  | nil =>
    intro f _
    cases f <;> rfl
  | cons c cs ih =>
    intro f hf
    obtain ⟨f1, rfl⟩ : ∃ f1, f = f1 + 1 := ⟨f - 1, by simp at hf; omega⟩
    have hdec := utf8Decode_encode_char c (cs.flatMap (fun c => utf8EncodeRune c.toNat))
    have hpos := utf8EncodeRune_length_pos c.toNat
    rw [List.flatMap_cons]
    obtain ⟨b0, tl, hbt⟩ : ∃ b0 tl, utf8EncodeRune c.toNat = b0 :: tl := by
      cases h : utf8EncodeRune c.toNat with
      | nil => rw [h] at hpos; simp at hpos
      | cons b0 tl => exact ⟨b0, tl, rfl⟩
    rw [hbt] at hdec ⊢
    rw [List.cons_append] at hdec ⊢
    simp only [utf8Lossy, hdec, Char.ofNat_toNat]
    congr 1
    rw [← List.cons_append, List.drop_left]
    exact ih f1 (by simpa using hf)

/-- The UTF-8 encoding of a text has no byte to replace. -/
theorem toValidUTF8_of_text (text : String) :
    (GoString.ofString text).toValidUTF8 = GoString.ofString text := by
  unfold GoString.toValidUTF8 GoString.ofString
  rw [ofChars_bytes_val, utf8Lossy_utf8 text.data _ (by
    rw [← List.length_map (GoString.ofChars text.data).bytes Fin.val, ofChars_bytes_val]
    exact length_le_flatMap_utf8 text.data)]

/-- Go `json.Unmarshal` reads back from `json.Marshal` of any Go string the
string with its invalid bytes replaced by U+FFFD. -/
theorem jsonUnmarshal_jsonMarshal_any (s old : GoString) :
    jsonUnmarshal (jsonMarshal s) old = (s.toValidUTF8, none) :=
  jsonUnmarshal_of_literal _ _ _ (jsonStringLiteral_jsonMarshal_any s)

/-- A Go string is valid UTF-8 exactly when it is the UTF-8 encoding of a text. -/
theorem validUTF8_iff_text (s : GoString) :
    s.ValidUTF8 ↔ ∃ text : String, s = GoString.ofString text := by
  constructor
  · intro h
    exact ⟨String.mk (utf8Lossy s.bytes.length (s.bytes.map Fin.val)), h.symm⟩
  · rintro ⟨text, rfl⟩
    exact toValidUTF8_of_text text

/-! ## Maps -/

theorem find_fst_eq_none {l : List (T × GoString)} {k : T}
    (h : k ∉ l.map Prod.fst) : l.find? (fun e => decide (e.1 = k)) = none := by
  rw [List.find?_eq_none]
  intro e he hk
  exact h (List.mem_map.mpr ⟨e, he, by simpa using hk⟩)

theorem find_fst_of_mem {l : List (T × GoString)} (hn : (l.map Prod.fst).Nodup) {k : T}
    {s : GoString} (h : (k, s) ∈ l) : l.find? (fun e => decide (e.1 = k)) = some (k, s) := by
  induction l with
  | nil => simp at h
  | cons e l ih =>
    rw [List.map_cons, List.nodup_cons] at hn
    rcases List.mem_cons.mp h with rfl | hm
    · simp
    · have hne : e.1 ≠ k := fun hek =>
        hn.1 (hek ▸ List.mem_map.mpr ⟨(k, s), hm, rfl⟩)
      rw [List.find?_cons_of_neg _ (by simpa using hne)]
      exact ih hn.2 hm

theorem lookup_eq_some_iff (m : Option (GoMap T)) (k : T) (s : GoString) :
    lookup m k = some s ↔ (k, s) ∈ rangeOf m := by
  cases m with
  | none => simp [lookup, rangeOf]
  | some m =>
    simp only [lookup, rangeOf, GoMap.get]
    constructor
    · intro h
      rcases hf : m.entries.find? (fun e => decide (e.1 = k)) with _ | e
      · rw [hf] at h; simp at h
      · rw [hf] at h
        have hk : e.1 = k := by simpa using List.find?_some hf
        have hs : e.2 = s := by simpa using h
        have := List.mem_of_find?_eq_some hf
        rwa [← hk, ← hs]
    · intro h
      rw [find_fst_of_mem m.nodup h]; rfl

theorem isKey_iff_lookup (m : Option (GoMap T)) (k : T) :
    IsKey m k ↔ ∃ s, lookup m k = some s := by
  simp only [lookup_eq_some_iff, IsKey, List.mem_map]
  constructor
  · rintro ⟨e, he, rfl⟩; exact ⟨e.2, he⟩
  · rintro ⟨s, hs⟩; exact ⟨(k, s), hs, rfl⟩

theorem lookup_isSome_iff (m : Option (GoMap T)) (k : T) :
    (lookup m k).isSome = true ↔ IsKey m k := by
  rw [isKey_iff_lookup, Option.isSome_iff_exists]

theorem lookup_eq_none_iff (m : Option (GoMap T)) (k : T) :
    lookup m k = none ↔ ¬ IsKey m k := by
  rw [← lookup_isSome_iff]; cases lookup m k <;> simp

theorem rangeOf_nodup {K : Type} (m : Option (GoMap K)) :
    ((rangeOf m).map Prod.fst).Nodup := by
  cases m with
  | none => simp [rangeOf]
  | some m => exact m.nodup

theorem len_eq_length {K : Type} (m : Option (GoMap K)) :
    len m = ((rangeOf m).map Prod.fst).length := by
  cases m <;> simp [len, rangeOf]

/-! ## The loops -/

theorem fromStringLoop_found {K : Type} [Inhabited K] (rep : GoString) (l : List (K × GoString))
    (h : ∃ e ∈ l, e.2 = rep) : ∃ k, fromStringLoop rep l = (k, true) ∧ (k, rep) ∈ l := by
  induction l with
  | nil => simp at h
  | cons e l ih =>
    obtain ⟨k, s⟩ := e
    by_cases hs : rep = s
    · exact ⟨k, by simp [fromStringLoop, hs], by simp [hs]⟩
    · obtain ⟨e, he, her⟩ := h
      have hmem : e ∈ l := by
        rcases List.mem_cons.mp he with rfl | hm
        · exact absurd her.symm hs
        · exact hm
      obtain ⟨k2, h1, h2⟩ := ih ⟨e, hmem, her⟩
      exact ⟨k2, by simp [fromStringLoop, hs, h1], List.mem_cons_of_mem _ h2⟩

theorem fromStringLoop_not_found {K : Type} [Inhabited K] (rep : GoString)
    (l : List (K × GoString))
    (h : ∀ e ∈ l, e.2 ≠ rep) : fromStringLoop rep l = (default, false) := by
  induction l with
  | nil => rfl
  | cons e l ih =>
    obtain ⟨k, s⟩ := e
    have hs : rep ≠ s := fun heq => h (k, s) (by simp) heq.symm
    simp only [fromStringLoop, if_neg hs]
    exact ih (fun e he => h e (List.mem_cons_of_mem _ he))

theorem validateLoop_eq_none_iff (j : Option (GoMap T)) (l : List (T × GoString)) :
    validateLoop j l = none ↔ ∀ e ∈ l, IsKey j e.1 := by
  induction l with
  | nil => simp [validateLoop]
  | cons e l ih =>
    obtain ⟨k, s⟩ := e
    simp only [validateLoop, List.mem_cons, forall_eq_or_imp]
    by_cases hk : IsKey j k
    · have : (lookup j k).isNone = false := by
        have := (lookup_isSome_iff j k).mpr hk
        cases hl : lookup j k <;> simp_all
      simp [this, ih, hk]
    · have : (lookup j k).isNone = true := by
        rw [(lookup_eq_none_iff j k).mpr hk]; rfl
      simp [this, hk]

theorem validateLoop_values (j : Option (GoMap T)) (l : List (T × GoString)) :
    validateLoop j l = none ∨ validateLoop j l = some GoError.ErrStringsIncoherence := by
  induction l with
  | nil => left; rfl
  | cons e l ih =>
    obtain ⟨k, s⟩ := e
    simp only [validateLoop]
    split_ifs
    · right; rfl
    · exact ih

/-! ## Display strings -/

theorem toStringHelper_of_lookup [GoSyntax T] (md : Metadata T) (v : T)
    (m : Option (GoMap T)) (s : GoString) (h : lookup m v = some s) :
    md.toStringHelper v m = (s, none) := by
  simp only [Metadata.toStringHelper, h]

theorem toStringHelper_of_not_key [GoSyntax T] (md : Metadata T) (v : T)
    (m : Option (GoMap T)) (h : ¬ IsKey m v) :
    md.toStringHelper v m =
      (("" : GoString),
        some (GoError.errorf ("invalid " ++ md.Name ++ " value: " ++ GoSyntax.goSyntax v))) := by
  simp only [Metadata.toStringHelper, (lookup_eq_none_iff m v).mpr h]

/-- C1, as amended. Display round trip: when `v` is a key of the effective
display mapping (`Strings` if it is not nil, else `JSONStrings`) and no other
key has the display string of `v`, `FromStringHelper` applied to the string of
`ToStringHelper v` gives `(v, true)`. -/
theorem display_round_trip [Inhabited T] [GoSyntax T] (md : Metadata T) (v : T)
    (hkey : IsKey (if md.Strings.isSome then md.Strings else md.JSONStrings) v)
    (huniq : ∀ k,
      lookup (if md.Strings.isSome then md.Strings else md.JSONStrings) k =
        lookup (if md.Strings.isSome then md.Strings else md.JSONStrings) v → k = v) :
    md.FromStringHelper (md.ToStringHelper v).1 = (v, true) := by
  have hkey : IsKey md.getStrings v := hkey
  have huniq : ∀ k, lookup md.getStrings k = lookup md.getStrings v → k = v := huniq
  obtain ⟨s, hs⟩ := (isKey_iff_lookup _ v).mp hkey
  have hmem := (lookup_eq_some_iff _ v s).mp hs
  obtain ⟨k, hk, hkm⟩ := fromStringLoop_found s (rangeOf md.getStrings) ⟨(v, s), hmem, rfl⟩
  have hkv : k = v := huniq k (((lookup_eq_some_iff _ k s).mpr hkm).trans hs.symm)
  rw [Metadata.ToStringHelper, toStringHelper_of_lookup md v _ s hs]
  simp only [Metadata.FromStringHelper, Metadata.fromStringHelper, hk, hkv]

/-- Witness of C1: key 3 of the `metaGopherState` table, whose strings are pairwise distinct. -/
theorem display_round_trip_witness :
    IsKey (if metaGopherState.Strings.isSome then metaGopherState.Strings else metaGopherState.JSONStrings) 3 ∧
      metaGopherState.FromStringHelper (metaGopherState.ToStringHelper 3).1 = (3, true) :=
  ⟨by decide, display_round_trip metaGopherState 3 (by decide) (by
    intro k hk
    have hm := (lookup_eq_some_iff metaGopherState.getStrings k "Coding").mp hk
    simp +decide [metaGopherState, gopherStrings, Metadata.getStrings, rangeOf] at hm
    exact hm)⟩

/-- Counterexample to C1 as stated: 2 is a key of a table whose keys 1 and 2
share the string "a", and the round trip from 2 gives `(1, true)`. -/
theorem display_round_trip_shared :
    IsKey metaShared.getStrings 2 ∧
      metaShared.FromStringHelper (metaShared.ToStringHelper 2).1 = (1, true) ∧
      metaShared.FromStringHelper (metaShared.ToStringHelper 2).1 ≠ (2, true) := by
  decide

/-! ## Serialized form -/

theorem marshalJSONHelper_of_lookup [GoSyntax T] (md : Metadata T) (v : T) (s : GoString)
    (h : lookup md.getJSONStrings v = some s) :
    md.MarshalJSONHelper v = (some (jsonMarshal s), none) := by
  simp only [Metadata.MarshalJSONHelper, toStringHelper_of_lookup md v _ s h]

/-- C2, as amended. JSON round trip: when the effective serialization mapping
(`JSONStrings` if it is not nil, else `Strings`) holds for `v` a string that is
valid UTF-8 and that no other key has, `UnmarshalJSONHelper` applied to the
bytes of `MarshalJSONHelper v` returns no error and stores `v`, whatever the
output location held. -/
theorem json_round_trip [Inhabited T] [GoSyntax T] (md : Metadata T) (v old : T) (s : GoString)
    (hkey : lookup (if md.JSONStrings.isSome then md.JSONStrings else md.Strings) v = some s)
    (hvalid : s.ValidUTF8)
    (huniq : ∀ k,
      lookup (if md.JSONStrings.isSome then md.JSONStrings else md.Strings) k = some s → k = v) :
    md.UnmarshalJSONHelper (bytesOf (md.MarshalJSONHelper v).1) old = (v, none) := by
  have hs : lookup md.getJSONStrings v = some s := hkey
  have hmem := (lookup_eq_some_iff _ v s).mp hs
  obtain ⟨k, hk, hkm⟩ := fromStringLoop_found s (rangeOf md.getJSONStrings) ⟨(v, s), hmem, rfl⟩
  have hkv : k = v := huniq k ((lookup_eq_some_iff md.getJSONStrings k s).mpr hkm)
  have hback : jsonUnmarshal (jsonMarshal s) "" = (s, none) := by
    rw [jsonUnmarshal_jsonMarshal_any, hvalid]
  rw [marshalJSONHelper_of_lookup md v s hs]
  simp only [bytesOf, Metadata.UnmarshalJSONHelper, hback, Metadata.fromStringHelper, hk, hkv]

/-- Witness of C2: value 1 of `cstMeta`, whose `JSONStrings` gives it
"homer_simpson", with 0 in the output location. -/
theorem json_round_trip_witness :
    cstMeta.UnmarshalJSONHelper (bytesOf (cstMeta.MarshalJSONHelper 1).1) 0 = (1, none) :=
  json_round_trip cstMeta 1 0 "homer_simpson" (by decide) (by decide) (by
    intro k hk
    have hm := (lookup_eq_some_iff cstMeta.JSONStrings k _).mp hk
    simp +decide [cstMeta, rangeOf] at hm
    exact hm)

/-- Counterexamples to C2 as stated. On `metaShared` the keys 1 and 2 share the
string "a": marshalling 2 gives the three bytes of the JSON text `"a"`, and
unmarshalling them stores 1, not 2. On `metaRaw` key 1 has the string
`"a\xffb"`, which no other key has and which is not valid UTF-8: marshalling 1
writes the byte 0xFF as the escape `\ufffd`, and unmarshalling reads the three
bytes of U+FFFD in its place, a string of no key, so the call returns the
unknown-value error and stores nothing. -/
theorem json_round_trip_fails :
    (IsKey metaShared.getJSONStrings 2 ∧
      metaShared.MarshalJSONHelper 2 = (some [34, 97, 34], none) ∧
      metaShared.UnmarshalJSONHelper (bytesOf (metaShared.MarshalJSONHelper 2).1) 0 = (1, none) ∧
      metaShared.UnmarshalJSONHelper (bytesOf (metaShared.MarshalJSONHelper 2).1) 0 ≠
        (2, none)) ∧
    (IsKey metaRaw.getJSONStrings 1 ∧
      metaRaw.MarshalJSONHelper 1 =
        (some [34, 97, 92, 117, 102, 102, 102, 100, 98, 34], none) ∧
      metaRaw.UnmarshalJSONHelper (bytesOf (metaRaw.MarshalJSONHelper 1).1) 0 =
        (0, some (GoError.errorf
          ("unable to unmashal json, unknown value: " ++ (⟨[97, 239, 191, 189, 98]⟩ : GoString)))) ∧
      metaRaw.UnmarshalJSONHelper (bytesOf (metaRaw.MarshalJSONHelper 1).1) 0 ≠ (1, none)) := by
  decide

/-! ## Validate -/

theorem keys_length_eq {K : Type} {l1 l2 : List K} (h1 : l1.Nodup) (h2 : l2.Nodup)
    (h : ∀ k, k ∈ l1 ↔ k ∈ l2) : l1.length = l2.length :=
  ((List.perm_ext_iff_of_nodup h1 h2).mpr h).length_eq

theorem keys_subset_of_length {K : Type} {l1 l2 : List K} (h1 : l1.Nodup)
    (hsub : ∀ k, k ∈ l1 → k ∈ l2) (hlen : l2.length ≤ l1.length) : ∀ k, k ∈ l2 → k ∈ l1 := by
  intro k hk
  have hp : l1.Subperm l2 := List.subperm_of_subset h1 hsub
  exact (hp.perm_of_length_le hlen).mem_iff.mpr hk

/-- C3. A `Metadata` with a non-empty `Name`, at least one non-empty table and,
when both tables are non-nil, the same keys in both, passes `Validate`. -/
theorem validate_ok (md : Metadata T) (hname : md.Name ≠ "")
    (hnonempty : 0 < len md.Strings ∨ 0 < len md.JSONStrings)
    (hkeys : md.Strings.isSome = true → md.JSONStrings.isSome = true →
      ∀ k, IsKey md.Strings k ↔ IsKey md.JSONStrings k) :
    md.Validate = none := by
  unfold Metadata.Validate
  rw [if_neg hname]
  have h2 : ¬ ((md.Strings.isNone || len md.Strings == 0) &&
      (md.JSONStrings.isNone || len md.JSONStrings == 0)) = true := by
    intro h
    simp only [Bool.and_eq_true, Bool.or_eq_true, beq_iff_eq] at h
    obtain ⟨hs, hj⟩ := h
    have hs0 : len md.Strings = 0 := by
      rcases hs with hs | hs
      · cases hm : md.Strings <;> simp_all [len]
      · exact hs
    have hj0 : len md.JSONStrings = 0 := by
      rcases hj with hj | hj
      · cases hm : md.JSONStrings <;> simp_all [len]
      · exact hj
    omega
  rw [if_neg h2]
  split_ifs with hboth hlen
  · exfalso
    simp only [Bool.and_eq_true] at hboth
    apply hlen
    rw [len_eq_length, len_eq_length]
    exact keys_length_eq (rangeOf_nodup _) (rangeOf_nodup _) (hkeys hboth.1 hboth.2)
  · simp only [Bool.and_eq_true] at hboth
    rw [validateLoop_eq_none_iff]
    intro e he
    exact (hkeys hboth.1 hboth.2 e.1).mp (List.mem_map.mpr ⟨e, he, rfl⟩)
  · rfl

/-- Witness of C3: `cstMeta`, which has a name and two tables with the keys 1 to 5. -/
theorem validate_ok_witness : cstMeta.Validate = none :=
  validate_ok cstMeta (by decide) (Or.inl (by decide)) (by
    intro _ _ k
    simp [IsKey, rangeOf, cstMeta])

/-- C4. With an empty `Name`, `Validate` returns `ErrNameMissing`, whatever the tables hold. -/
theorem validate_name_missing (md : Metadata T) (hname : md.Name = "") :
    md.Validate = some GoError.ErrNameMissing := by
  unfold Metadata.Validate
  rw [if_pos hname]

/-- Witness of C4: the case `noNameCase` of `TestValidate`. -/
theorem validate_name_missing_witness : noNameCase.Validate = some GoError.ErrNameMissing :=
  validate_name_missing noNameCase (by decide)

/-- C5, as amended. With a non-empty `Name` and each table nil or empty,
`Validate` returns `ErrNoStringsDefined`. -/
theorem validate_no_strings (md : Metadata T) (hname : md.Name ≠ "")
    (hs : md.Strings = none ∨ len md.Strings = 0)
    (hj : md.JSONStrings = none ∨ len md.JSONStrings = 0) :
    md.Validate = some GoError.ErrNoStringsDefined := by
  unfold Metadata.Validate
  rw [if_neg hname, if_pos]
  simp only [Bool.and_eq_true, Bool.or_eq_true, beq_iff_eq]
  constructor
  · rcases hs with hs | hs
    · left; rw [hs]; rfl
    · right; exact hs
  · rcases hj with hj | hj
    · left; rw [hj]; rfl
    · right; exact hj

/-- Witness of C5: the case `noStringsCase` of `TestValidate`. -/
theorem validate_no_strings_witness :
    noStringsCase.Validate = some GoError.ErrNoStringsDefined :=
  validate_no_strings noStringsCase (by decide) (Or.inl rfl) (Or.inl rfl)

/-- Counterexample to C5 as stated: both tables of `metaBlank` are nil, and
`Validate` returns `ErrNameMissing`, not `ErrNoStringsDefined`. -/
theorem validate_no_strings_blank_name :
    metaBlank.Strings = none ∧ metaBlank.JSONStrings = none ∧
      metaBlank.Validate = some GoError.ErrNameMissing ∧
      metaBlank.Validate ≠ some GoError.ErrNoStringsDefined :=
  ⟨rfl, rfl, by decide, by decide⟩

/-- C6. With a non-empty `Name` and both tables non-nil, `Validate` returns
`ErrStringsIncoherence` when the tables differ in size or some value is a key
of exactly one of them (be it of `Strings` only or of `JSONStrings` only). -/
theorem validate_incoherence (md : Metadata T) (hname : md.Name ≠ "")
    (hs : md.Strings.isSome = true) (hj : md.JSONStrings.isSome = true)
    (hdiff : len md.Strings ≠ len md.JSONStrings ∨
      ∃ k, ¬ (IsKey md.Strings k ↔ IsKey md.JSONStrings k)) :
    md.Validate = some GoError.ErrStringsIncoherence := by
  unfold Metadata.Validate
  rw [if_neg hname]
  by_cases hlen : len md.Strings = len md.JSONStrings
  · have hex : ∃ k, ¬ (IsKey md.Strings k ↔ IsKey md.JSONStrings k) := by
      rcases hdiff with h | h
      · exact absurd hlen h
      · exact h
    obtain ⟨k, hk⟩ := hex
    have hloop : validateLoop md.JSONStrings (rangeOf md.Strings) ≠ none := by
      intro hnone
      rw [validateLoop_eq_none_iff] at hnone
      have hsub : ∀ x, x ∈ (rangeOf md.Strings).map Prod.fst →
          x ∈ (rangeOf md.JSONStrings).map Prod.fst := by
        intro x hx
        obtain ⟨e, he, rfl⟩ := List.mem_map.mp hx
        exact hnone e he
      have hback := keys_subset_of_length (rangeOf_nodup md.Strings) hsub
        (by rw [← len_eq_length, ← len_eq_length, hlen])
      exact hk ⟨hsub k, hback k⟩
    have hpos : 0 < len md.Strings := by
      rw [len_eq_length, List.length_pos]
      intro hnil
      have hnil2 : (rangeOf md.JSONStrings).map Prod.fst = [] := by
        rw [← List.length_eq_zero, ← len_eq_length, ← hlen, len_eq_length, hnil]; rfl
      exact hk (by unfold IsKey; rw [hnil, hnil2])
    have h2 : ¬ ((md.Strings.isNone || len md.Strings == 0) &&
        (md.JSONStrings.isNone || len md.JSONStrings == 0)) = true := by
      intro h
      simp only [Bool.and_eq_true, Bool.or_eq_true, beq_iff_eq] at h
      rcases h.1 with h1 | h1
      · cases hm : md.Strings <;> simp_all
      · omega
    rw [if_neg h2, if_pos (by simp [hs, hj]), if_neg (by simpa using hlen)]
    rcases validateLoop_values md.JSONStrings (rangeOf md.Strings) with h | h
    · exact absurd h hloop
    · exact h
  · have h2 : ¬ ((md.Strings.isNone || len md.Strings == 0) &&
        (md.JSONStrings.isNone || len md.JSONStrings == 0)) = true := by
      intro h
      simp only [Bool.and_eq_true, Bool.or_eq_true, beq_iff_eq] at h
      have hs0 : len md.Strings = 0 := by
        rcases h.1 with h1 | h1
        · cases hm : md.Strings <;> simp_all
        · exact h1
      have hj0 : len md.JSONStrings = 0 := by
        rcases h.2 with h1 | h1
        · cases hm : md.JSONStrings <;> simp_all
        · exact h1
      omega
    rw [if_neg h2, if_pos (by simp [hs, hj]), if_pos hlen]

/-- Witness of C6: the case `differentStringsKeysCase` of `TestValidate`, two
tables of two entries with no key in common. -/
theorem validate_incoherence_witness :
    differentStringsKeysCase.Validate = some GoError.ErrStringsIncoherence :=
  validate_incoherence differentStringsKeysCase (by decide) rfl rfl
    (Or.inr ⟨1000, by decide⟩)

/-! ## Values and their display strings -/

/-- C7. For a key `v` of the effective display mapping (`Strings` if it is not
nil, else `JSONStrings`), `ToStringHelper v` returns the string the mapping
holds for `v` and a nil error. -/
theorem toString_of_key [GoSyntax T] (md : Metadata T) (v : T)
    (hkey : IsKey (if md.Strings.isSome then md.Strings else md.JSONStrings) v) :
    ∃ s, lookup (if md.Strings.isSome then md.Strings else md.JSONStrings) v = some s ∧
      md.ToStringHelper v = (s, none) := by
  obtain ⟨s, hs⟩ := (isKey_iff_lookup _ v).mp hkey
  exact ⟨s, hs, toStringHelper_of_lookup md v _ s hs⟩

/-- Witness of C7: value 4 of `metaGopherState`, whose display string is "Lol". -/
theorem toString_of_key_witness :
    ∃ s, lookup (if metaGopherState.Strings.isSome then metaGopherState.Strings
        else metaGopherState.JSONStrings) 4 = some s ∧
      metaGopherState.ToStringHelper 4 = (s, none) :=
  toString_of_key metaGopherState 4 (by decide)

/-- C8. `IsValidHelper v` is true exactly when `v` is a key of the effective
display mapping (`Strings` if it is not nil, else `JSONStrings`), which is
exactly when `ToStringHelper v` returns a nil error. -/
theorem isValid_iff_key [GoSyntax T] (md : Metadata T) (v : T) :
    (md.IsValidHelper v = true ↔
        IsKey (if md.Strings.isSome then md.Strings else md.JSONStrings) v) ∧
      (IsKey (if md.Strings.isSome then md.Strings else md.JSONStrings) v ↔
        (md.ToStringHelper v).2 = none) := by
  refine ⟨lookup_isSome_iff md.getStrings v, ?_⟩
  show IsKey md.getStrings v ↔ _
  by_cases hk : IsKey md.getStrings v
  · obtain ⟨s, hs⟩ := (isKey_iff_lookup _ v).mp hk
    simp [Metadata.ToStringHelper, toStringHelper_of_lookup md v _ s hs, hk]
  · simp [Metadata.ToStringHelper, toStringHelper_of_not_key md v _ hk, hk]

/-- C9. For a value `v` that is not a key of the effective display mapping
(`Strings` if it is not nil, else `JSONStrings`), `ToStringHelper v` returns
the empty string and an error whose message is "invalid ", the `Name`,
" value: " and the `%#v` rendering of `v`. -/
theorem toString_of_not_key [GoSyntax T] (md : Metadata T) (v : T)
    (hkey : ¬ IsKey (if md.Strings.isSome then md.Strings else md.JSONStrings) v) :
    ∃ err, md.ToStringHelper v = (("" : GoString), some err) ∧
      err.Error = some ("invalid " ++ md.Name ++ " value: " ++ GoSyntax.goSyntax v) :=
  ⟨_, toStringHelper_of_not_key md v _ hkey, rfl⟩

/-- Witness of C9: the value 999 of `example_test.go`, which `metaGopherState` does not hold. -/
theorem toString_of_not_key_witness :
    ∃ err, metaGopherState.ToStringHelper 999 = (("" : GoString), some err) ∧
      err.Error = some "invalid GopherState value: 999" := by
  obtain ⟨err, h1, h2⟩ := toString_of_not_key metaGopherState 999 (by decide)
  exact ⟨err, h1, h2.trans (by decide)⟩

/-- C10. `StringHelper v` is the string of `ToStringHelper v` when that call
returns a nil error and the empty string otherwise; it has no error result. -/
theorem stringHelper_eq [GoSyntax T] (md : Metadata T) (v : T) :
    md.StringHelper v =
      if (md.ToStringHelper v).2 = none then (md.ToStringHelper v).1 else "" := by
  unfold Metadata.StringHelper
  rcases md.ToStringHelper v with ⟨s, _ | e⟩ <;> simp

/-- The bytes `json.Marshal` gives for a valid UTF-8 string are a JSON string
literal denoting it. -/
theorem jsonStringLiteral_jsonMarshal (s : String) :
    jsonStringLiteral (jsonMarshal (GoString.ofString s)) = some (GoString.ofString s) := by
  have hlen : s.data.length < (s.data.flatMap jsonEncodeChar ++ [34]).length := by
    have := length_le_flatMap_encode s.data
    rw [List.length_append, List.length_singleton]; omega
  have h := unquote_encodeChars s.data _ [] [] hlen
  have hs : skipSpace (jsonEncodeString s) = 34 :: (s.data.flatMap jsonEncodeChar ++ [34]) := rfl
  rw [jsonMarshal_ofString]
  unfold jsonStringLiteral
  rw [map_val_ofNat _ (jsonEncodeString_lt s), hs]
  simp only [h, skipSpace, List.nil_append, if_true, GoString.ofString]

/-! ## Reverse lookup -/

theorem fromStringLoop_true {K : Type} [Inhabited K] (rep : GoString) (l : List (K × GoString))
    (k : K) (h : fromStringLoop rep l = (k, true)) : (k, rep) ∈ l := by
  induction l with
  | nil => simp [fromStringLoop] at h
  | cons e l ih =>
    obtain ⟨k2, s⟩ := e
    by_cases hs : rep = s
    · simp only [fromStringLoop, if_pos hs, Prod.mk.injEq, and_true] at h
      rw [hs, h]; exact List.mem_cons_self _ _
    · simp only [fromStringLoop, if_neg hs] at h
      exact List.mem_cons_of_mem _ (ih h)

/-- C11. `FromStringHelper s` returns `(k, true)` for a key `k` that the
effective display mapping (`Strings` if it is not nil, else `JSONStrings`)
sends to `s` when there is such a key, and the zero value with `false` when
there is none. -/
theorem fromString_spec [Inhabited T] (md : Metadata T) (s : GoString) :
    ((∃ k, lookup (if md.Strings.isSome then md.Strings else md.JSONStrings) k = some s) →
        ∃ k, md.FromStringHelper s = (k, true) ∧
          lookup (if md.Strings.isSome then md.Strings else md.JSONStrings) k = some s) ∧
      ((∀ k, lookup (if md.Strings.isSome then md.Strings else md.JSONStrings) k ≠ some s) →
        md.FromStringHelper s = (default, false)) := by
  show ((∃ k, lookup md.getStrings k = some s) →
        ∃ k, md.FromStringHelper s = (k, true) ∧ lookup md.getStrings k = some s) ∧
      ((∀ k, lookup md.getStrings k ≠ some s) → md.FromStringHelper s = (default, false))
  constructor
  · rintro ⟨k, hk⟩
    have hmem := (lookup_eq_some_iff _ k s).mp hk
    obtain ⟨k2, h1, h2⟩ := fromStringLoop_found s (rangeOf md.getStrings) ⟨(k, s), hmem, rfl⟩
    exact ⟨k2, h1, (lookup_eq_some_iff _ k2 s).mpr h2⟩
  · intro hno
    apply fromStringLoop_not_found
    rintro ⟨k, s2⟩ he hs
    exact hno k ((lookup_eq_some_iff _ k s).mpr (by simpa using hs ▸ he))

/-- Witness of C11: on `metaJSONOnly`, where `Strings` is nil and `JSONStrings`
is the effective display mapping, "one" is the string of key 1 and "two" the
string of no key. -/
theorem fromString_spec_witness :
    (∃ k, metaJSONOnly.FromStringHelper "one" = (k, true) ∧
        lookup (if metaJSONOnly.Strings.isSome then metaJSONOnly.Strings else metaJSONOnly.JSONStrings) k = some "one") ∧
      metaJSONOnly.FromStringHelper "two" = (0, false) :=
  ⟨(fromString_spec metaJSONOnly "one").1 ⟨1, by decide⟩,
    (fromString_spec metaJSONOnly "two").2 (by
      intro k hk
      have hm := (lookup_eq_some_iff metaJSONOnly.JSONStrings k _).mp hk
      simp +decide [metaJSONOnly, rangeOf] at hm)⟩

/-! ## MarshalJSONHelper -/

theorem marshalJSONHelper_of_not_key [GoSyntax T] (md : Metadata T) (v : T)
    (h : ¬ IsKey md.getJSONStrings v) :
    md.MarshalJSONHelper v =
      (none, some (GoError.errorfW ("unable to mashal " ++ md.Name ++ " type to json: ")
        (GoError.errorf ("invalid " ++ md.Name ++ " value: " ++ GoSyntax.goSyntax v)))) := by
  simp only [Metadata.MarshalJSONHelper, toStringHelper_of_not_key md v _ h]

/-- C12. For a key `v` of the effective serialization mapping (`JSONStrings` if
it is not nil, else `Strings`), `MarshalJSONHelper v` returns a nil error and
the JSON text of the string `s` that mapping holds for `v`, a quoted string
literal that denotes `s` with its invalid bytes replaced by U+FFFD, hence `s`
itself when `s` is valid UTF-8. With `JSONStrings` nil, `s` is the entry of
`Strings`; with `JSONStrings` not nil, `s` is the entry of `JSONStrings`. -/
theorem marshal_of_key [GoSyntax T] (md : Metadata T) (v : T)
    (hkey : IsKey (if md.JSONStrings.isSome then md.JSONStrings else md.Strings) v) :
    ∃ s, lookup (if md.JSONStrings.isSome then md.JSONStrings else md.Strings) v = some s ∧
      md.MarshalJSONHelper v = (some (jsonMarshal s), none) ∧
      jsonStringLiteral (jsonMarshal s) = some s.toValidUTF8 ∧
      (s.ValidUTF8 → jsonStringLiteral (jsonMarshal s) = some s) ∧
      (md.JSONStrings.isSome = false → lookup md.Strings v = some s) ∧
      (md.JSONStrings.isSome = true → lookup md.JSONStrings v = some s) := by
  obtain ⟨s, hs⟩ := (isKey_iff_lookup _ v).mp hkey
  refine ⟨s, hs, marshalJSONHelper_of_lookup md v s hs, jsonStringLiteral_jsonMarshal_any s,
    fun hv => ?_, ?_, ?_⟩
  · rw [jsonStringLiteral_jsonMarshal_any, hv]
  · intro hnil
    simpa [hnil] using hs
  · intro hsome
    simpa [hsome] using hs

/-- Witness of C12: value 1 of `cstMeta`, whose two tables both hold it. -/
theorem marshal_of_key_witness :
    ∃ s, lookup (if cstMeta.JSONStrings.isSome then cstMeta.JSONStrings else cstMeta.Strings) 1 =
        some s ∧
      cstMeta.MarshalJSONHelper 1 = (some (jsonMarshal s), none) ∧
      jsonStringLiteral (jsonMarshal s) = some s.toValidUTF8 ∧
      (s.ValidUTF8 → jsonStringLiteral (jsonMarshal s) = some s) ∧
      (cstMeta.JSONStrings.isSome = false → lookup cstMeta.Strings 1 = some s) ∧
      (cstMeta.JSONStrings.isSome = true → lookup cstMeta.JSONStrings 1 = some s) :=
  marshal_of_key cstMeta 1 (by decide)

/-- C13. `MarshalJSONHelper v` returns an error exactly when `v` is not a key
of the effective serialization mapping (`JSONStrings` if it is not nil, else
`Strings`); the bytes are then nil and the error wraps the invalid-value error
of the lookup. -/
theorem marshal_error_iff [GoSyntax T] (md : Metadata T) (v : T) :
    ((md.MarshalJSONHelper v).2 ≠ none ↔
        ¬ IsKey (if md.JSONStrings.isSome then md.JSONStrings else md.Strings) v) ∧
      (¬ IsKey (if md.JSONStrings.isSome then md.JSONStrings else md.Strings) v →
        md.MarshalJSONHelper v =
          (none, some (GoError.errorfW ("unable to mashal " ++ md.Name ++ " type to json: ")
            (GoError.errorf ("invalid " ++ md.Name ++ " value: " ++ GoSyntax.goSyntax v))))) := by
  refine ⟨?_, marshalJSONHelper_of_not_key md v⟩
  show (md.MarshalJSONHelper v).2 ≠ none ↔ ¬ IsKey md.getJSONStrings v
  by_cases hk : IsKey md.getJSONStrings v
  · obtain ⟨s, hs⟩ := (isKey_iff_lookup _ v).mp hk
    simp [marshalJSONHelper_of_lookup md v s hs, hk]
  · simp [marshalJSONHelper_of_not_key md v hk, hk]

/-- Witness of C13: the value 999 of `TestMarshalJSONHelper`, which `cstMeta` does not hold. -/
theorem marshal_error_iff_witness :
    cstMeta.MarshalJSONHelper 999 =
      (none, some (GoError.errorfW "unable to mashal cst type to json: "
        (GoError.errorf "invalid cst value: 999"))) :=
  ((marshal_error_iff cstMeta 999).2 (by decide)).trans (by decide)

/-! ## UnmarshalJSONHelper -/

theorem unmarshalJSONHelper_found {K : Type} [Inhabited K] (md : Metadata K) (b : List Byte)
    (old : K)
    (s : GoString) (k : K) (hjson : jsonUnmarshal b "" = (s, none))
    (hfrom : fromStringLoop s (rangeOf md.getJSONStrings) = (k, true)) :
    md.UnmarshalJSONHelper b old = (k, none) := by
  simp only [Metadata.UnmarshalJSONHelper, hjson, Metadata.fromStringHelper, hfrom]

theorem unmarshalJSONHelper_not_found {K : Type} [Inhabited K] (md : Metadata K) (b : List Byte)
    (old : K)
    (s : GoString) (hjson : jsonUnmarshal b "" = (s, none))
    (hfrom : fromStringLoop s (rangeOf md.getJSONStrings) = (default, false)) :
    md.UnmarshalJSONHelper b old =
      (old, some (GoError.errorf ("unable to unmashal json, unknown value: " ++ s))) := by
  simp only [Metadata.UnmarshalJSONHelper, hjson, Metadata.fromStringHelper, hfrom]

/-- An input that is neither a string literal nor `null` fails with the error
that wraps the failure of `json.Unmarshal`, and the output location keeps its content. -/
theorem unmarshalJSONHelper_of_other {K : Type} [Inhabited K] (md : Metadata K) (b : List Byte)
    (old : K)
    (hs : jsonStringLiteral b = none) (hn : jsonNullLiteral b = false) :
    md.UnmarshalJSONHelper b old =
      (old, some (GoError.errorfW ("unable to unmashal " ++ md.Name ++ " type from json: ")
        (GoError.json JSONError.invalid))) := by
  simp only [Metadata.UnmarshalJSONHelper, jsonUnmarshal_of_other b "" hs hn]

/-- C14. When the input is a JSON string literal denoting `s` and some key of
the effective serialization mapping (`JSONStrings` if it is not nil, else
`Strings`) has the string `s`, `UnmarshalJSONHelper` returns a nil error and
stores a key whose string in that mapping is `s`. -/
theorem unmarshal_of_known [Inhabited T] (md : Metadata T) (b : List Byte) (old : T)
    (s : GoString) (hlit : jsonStringLiteral b = some s)
    (hkey : ∃ k,
      lookup (if md.JSONStrings.isSome then md.JSONStrings else md.Strings) k = some s) :
    ∃ k, md.UnmarshalJSONHelper b old = (k, none) ∧
      lookup (if md.JSONStrings.isSome then md.JSONStrings else md.Strings) k = some s := by
  have hkey : ∃ k, lookup md.getJSONStrings k = some s := hkey
  show ∃ k, md.UnmarshalJSONHelper b old = (k, none) ∧ lookup md.getJSONStrings k = some s
  obtain ⟨k, hk⟩ := hkey
  have hmem := (lookup_eq_some_iff _ k s).mp hk
  obtain ⟨k2, h1, h2⟩ := fromStringLoop_found s (rangeOf md.getJSONStrings) ⟨(k, s), hmem, rfl⟩
  exact ⟨k2, unmarshalJSONHelper_found md b old s k2 (jsonUnmarshal_of_literal b s "" hlit) h1,
    (lookup_eq_some_iff _ k2 s).mpr h2⟩

/-- Witness of C14: the bytes of `"homer_simpson"` on `cstMeta`, whose
`JSONStrings` is not nil and differs from `Strings`, with 0 in the output
location: the case "valid value homer (json strings)" of
`TestUnmarshalJSONHelper`. -/
theorem unmarshal_of_known_witness :
    jsonStringLiteral homerBytes = some "homer_simpson" ∧
      ∃ k, cstMeta.UnmarshalJSONHelper homerBytes 0 = (k, none) ∧
        lookup (if cstMeta.JSONStrings.isSome then cstMeta.JSONStrings else cstMeta.Strings) k =
          some "homer_simpson" :=
  ⟨by decide, unmarshal_of_known cstMeta homerBytes 0 "homer_simpson" (by decide)
    ⟨1, by decide⟩⟩

/-- C15. When the input is a JSON string literal denoting `s` and no key of the
effective serialization mapping (`JSONStrings` if it is not nil, else
`Strings`) has the string `s`, `UnmarshalJSONHelper` returns the error whose
message is "unable to unmashal json, unknown value: " followed by `s`. -/
theorem unmarshal_of_unknown [Inhabited T] (md : Metadata T) (b : List Byte) (old : T)
    (s : GoString) (hlit : jsonStringLiteral b = some s)
    (hno : ∀ k,
      lookup (if md.JSONStrings.isSome then md.JSONStrings else md.Strings) k ≠ some s) :
    ∃ err, (md.UnmarshalJSONHelper b old).2 = some err ∧
      err = GoError.errorf ("unable to unmashal json, unknown value: " ++ s) ∧
      err.Error = some ("unable to unmashal json, unknown value: " ++ s) := by
  have hfrom : fromStringLoop s (rangeOf md.getJSONStrings) = (default, false) := by
    apply fromStringLoop_not_found
    rintro ⟨k, s2⟩ he hs
    exact hno k ((lookup_eq_some_iff _ k s).mpr (by simpa using hs ▸ he))
  refine ⟨_, ?_, rfl, rfl⟩
  rw [unmarshalJSONHelper_not_found md b old s (jsonUnmarshal_of_literal b s "" hlit) hfrom]

/-- Witness of C15: the bytes of `"Walking on the moon"` on `metaGopherState`. -/
theorem unmarshal_of_unknown_witness :
    ∃ err, (metaGopherState.UnmarshalJSONHelper moonBytes 0).2 = some err ∧
      err = GoError.errorf ("unable to unmashal json, unknown value: " ++ "Walking on the moon") ∧
      err.Error = some ("unable to unmashal json, unknown value: " ++ "Walking on the moon") :=
  unmarshal_of_unknown metaGopherState moonBytes 0 "Walking on the moon" (by decide) (by
    intro k hk
    have hm := (lookup_eq_some_iff metaGopherState.getJSONStrings k _).mp hk
    simp +decide [metaGopherState, gopherStrings, Metadata.getJSONStrings, rangeOf] at hm)

/-- C16, at the input `null`. The four bytes of `null` are not a string
literal, yet `UnmarshalJSONHelper` does not return the error that wraps a
failure of `json.Unmarshal`: on `metaGopherState` it returns the unknown-value
error for the empty string, and on `metaEmptyString`, where key 0 has the
empty string, it returns a nil error and stores 0. A number fails as C16 says. -/
theorem unmarshal_null :
    jsonStringLiteral nullBytes = none ∧
      metaGopherState.UnmarshalJSONHelper nullBytes 3 =
        (3, some (GoError.errorf "unable to unmashal json, unknown value: ")) ∧
      metaEmptyString.UnmarshalJSONHelper nullBytes 1 = (0, none) ∧
      metaGopherState.UnmarshalJSONHelper numberBytes 3 =
        (3, some (GoError.errorfW "unable to unmashal GopherState type from json: "
          (GoError.json JSONError.invalid))) := by
  decide

/-- C17. Whenever `UnmarshalJSONHelper` returns an error, the output location
holds the value it held before the call. -/
theorem unmarshal_error_keeps {K : Type} [Inhabited K] (md : Metadata K) (b : List Byte)
    (old : K)
    (herr : (md.UnmarshalJSONHelper b old).2 ≠ none) :
    (md.UnmarshalJSONHelper b old).1 = old := by
  unfold Metadata.UnmarshalJSONHelper at herr ⊢
  split
  · rfl
  · split
    · rfl
    · rename_i hj _ value hfrom
      rw [hj] at herr
      simp [hfrom] at herr

/-- Witness of C17: the bytes of `"Walking on the moon"` on `metaGopherState`,
with 2 in the output location. -/
theorem unmarshal_error_keeps_witness :
    (metaGopherState.UnmarshalJSONHelper moonBytes 2).2 ≠ none ∧
      (metaGopherState.UnmarshalJSONHelper moonBytes 2).1 = 2 :=
  ⟨by decide, unmarshal_error_keeps metaGopherState moonBytes 2 (by decide)⟩

/-! ## What a valid `Metadata` guarantees -/

theorem validate_none_name (md : Metadata T) (h : md.Validate = none) : md.Name ≠ "" := by
  intro hname
  simp [Metadata.Validate, hname] at h

theorem validate_none_nonempty (md : Metadata T) (h : md.Validate = none) :
    0 < len md.Strings ∨ 0 < len md.JSONStrings := by
  unfold Metadata.Validate at h
  split_ifs at h with h1 h2
  all_goals
    simp only [Bool.and_eq_true, Bool.or_eq_true, beq_iff_eq, not_and_or, not_or] at h2
    rcases h2 with h2 | h2
    · left; omega
    · right; omega

theorem validate_none_keys (md : Metadata T) (h : md.Validate = none)
    (hs : md.Strings.isSome = true) (hj : md.JSONStrings.isSome = true) (k : T) :
    IsKey md.Strings k ↔ IsKey md.JSONStrings k := by
  unfold Metadata.Validate at h
  split_ifs at h with h1 h2 h3 h4
  · have hsub : ∀ x, x ∈ (rangeOf md.Strings).map Prod.fst →
        x ∈ (rangeOf md.JSONStrings).map Prod.fst := by
      intro x hx
      obtain ⟨e, he, rfl⟩ := List.mem_map.mp hx
      exact (validateLoop_eq_none_iff _ _).mp h e he
    have hlen : len md.Strings = len md.JSONStrings := by simpa using h4
    have hback := keys_subset_of_length (rangeOf_nodup md.Strings) hsub
      (by rw [← len_eq_length, ← len_eq_length, hlen])
    exact ⟨hsub k, hback k⟩
  · simp [hs, hj] at h3

theorem marshalJSONHelper_ok_iff [GoSyntax T] (md : Metadata T) (v : T) :
    (md.MarshalJSONHelper v).2 = none ↔ IsKey md.getJSONStrings v := by
  by_cases hk : IsKey md.getJSONStrings v
  · obtain ⟨s, hs⟩ := (isKey_iff_lookup _ v).mp hk
    simp [marshalJSONHelper_of_lookup md v s hs, hk]
  · simp [marshalJSONHelper_of_not_key md v hk, hk]

/-- C18. On a `Metadata` that passes `Validate`, a value is a key of the
effective display mapping exactly when it is a key of the effective
serialization mapping, so `IsValidHelper v` is true exactly when
`MarshalJSONHelper v` returns a nil error. -/
theorem shared_validity [GoSyntax T] (md : Metadata T) (hvalid : md.Validate = none) (v : T) :
    (IsKey md.getStrings v ↔ IsKey md.getJSONStrings v) ∧
      (md.IsValidHelper v = true ↔ (md.MarshalJSONHelper v).2 = none) := by
  have hkeys : IsKey md.getStrings v ↔ IsKey md.getJSONStrings v := by
    unfold Metadata.getStrings Metadata.getJSONStrings
    by_cases hs : md.Strings.isSome = true
    · by_cases hj : md.JSONStrings.isSome = true
      · rw [if_pos hs, if_pos hj]
        exact validate_none_keys md hvalid hs hj v
      · rw [if_pos hs, if_neg hj]
    · by_cases hj : md.JSONStrings.isSome = true
      · rw [if_neg hs, if_pos hj]
      · rw [if_neg hs, if_neg hj]
        have h1 : md.Strings = none := by simpa using hs
        have h2 : md.JSONStrings = none := by simpa using hj
        rw [h1, h2]
  refine ⟨hkeys, ?_⟩
  rw [marshalJSONHelper_ok_iff, ← hkeys]
  exact lookup_isSome_iff _ v

/-- Witness of C18: `cstMeta`, which passes `Validate`, and its value 4. -/
theorem shared_validity_witness :
    (IsKey cstMeta.getStrings 4 ↔ IsKey cstMeta.getJSONStrings 4) ∧
      (cstMeta.IsValidHelper 4 = true ↔ (cstMeta.MarshalJSONHelper 4).2 = none) :=
  shared_validity cstMeta (by decide) 4

/-- C19. If `Validate` returns nil, then `Name` is not empty, one of the two
tables is not empty and, when both tables are non-nil, they have the same keys. -/
theorem validate_sound (md : Metadata T) (hvalid : md.Validate = none) :
    md.Name ≠ "" ∧ (0 < len md.Strings ∨ 0 < len md.JSONStrings) ∧
      (md.Strings.isSome = true → md.JSONStrings.isSome = true →
        ∀ k, IsKey md.Strings k ↔ IsKey md.JSONStrings k) :=
  ⟨validate_none_name md hvalid, validate_none_nonempty md hvalid,
    fun hs hj k => validate_none_keys md hvalid hs hj k⟩

/-- Witness of C19: `cstMeta`, which passes `Validate`. -/
theorem validate_sound_witness :
    cstMeta.Name ≠ "" ∧ (0 < len cstMeta.Strings ∨ 0 < len cstMeta.JSONStrings) ∧
      (cstMeta.Strings.isSome = true → cstMeta.JSONStrings.isSome = true →
        ∀ k, IsKey cstMeta.Strings k ↔ IsKey cstMeta.JSONStrings k) :=
  validate_sound cstMeta (by decide)

/-- C20. When no two keys of the effective display mapping have the same
string, `FromStringHelper` applied to the string of `ToStringHelper v` gives
`(v, true)` for every key `v`; and on any `Metadata`, when `FromStringHelper s`
returns `(k, true)`, `ToStringHelper k` returns `s` and a nil error. -/
theorem injective_round_trip [Inhabited T] [GoSyntax T] (md : Metadata T) :
    ((∀ k1 k2 s,
          lookup (if md.Strings.isSome then md.Strings else md.JSONStrings) k1 = some s →
          lookup (if md.Strings.isSome then md.Strings else md.JSONStrings) k2 = some s →
          k1 = k2) →
        ∀ v, IsKey (if md.Strings.isSome then md.Strings else md.JSONStrings) v →
          md.FromStringHelper (md.ToStringHelper v).1 = (v, true)) ∧
      (∀ s k, md.FromStringHelper s = (k, true) → md.ToStringHelper k = (s, none)) := by
  show ((∀ k1 k2 s, lookup md.getStrings k1 = some s → lookup md.getStrings k2 = some s →
          k1 = k2) →
        ∀ v, IsKey md.getStrings v → md.FromStringHelper (md.ToStringHelper v).1 = (v, true)) ∧
      (∀ s k, md.FromStringHelper s = (k, true) → md.ToStringHelper k = (s, none))
  constructor
  · intro hinj v hkey
    obtain ⟨s, hs⟩ := (isKey_iff_lookup _ v).mp hkey
    have hmem := (lookup_eq_some_iff _ v s).mp hs
    obtain ⟨k, hk, hkm⟩ := fromStringLoop_found s (rangeOf md.getStrings) ⟨(v, s), hmem, rfl⟩
    have hkv : k = v := hinj k v s ((lookup_eq_some_iff _ k s).mpr hkm) hs
    rw [Metadata.ToStringHelper, toStringHelper_of_lookup md v _ s hs]
    simp only [Metadata.FromStringHelper, Metadata.fromStringHelper, hk, hkv]
  · intro s k hfrom
    have hmem := fromStringLoop_true s (rangeOf md.getStrings) k hfrom
    exact toStringHelper_of_lookup md k _ s ((lookup_eq_some_iff _ k s).mpr hmem)

/-- Witness of C20: the `metaGopherState` table, whose four strings are
pairwise distinct, at key 3 and at the string "Coding". -/
theorem injective_round_trip_witness :
    metaGopherState.FromStringHelper (metaGopherState.ToStringHelper 3).1 = (3, true) ∧
      metaGopherState.ToStringHelper 3 = (("Coding" : GoString), none) :=
  ⟨(injective_round_trip metaGopherState).1 (by
      intro k1 k2 s h1 h2
      have m1 := (lookup_eq_some_iff metaGopherState.getStrings k1 s).mp h1
      have m2 := (lookup_eq_some_iff metaGopherState.getStrings k2 s).mp h2
      simp only [metaGopherState, gopherStrings, Metadata.getStrings, rangeOf, Option.isSome_some,
        if_true, List.mem_cons, Prod.mk.injEq, List.mem_nil_iff, or_false] at m1 m2
      rcases m1 with ⟨rfl, rfl⟩ | ⟨rfl, rfl⟩ | ⟨rfl, rfl⟩ | ⟨rfl, rfl⟩ <;>
        rcases m2 with ⟨rfl, h⟩ | ⟨rfl, h⟩ | ⟨rfl, h⟩ | ⟨rfl, h⟩ <;>
        first | rfl | exact absurd h (by decide)) 3 (by decide),
    (injective_round_trip metaGopherState).2 "Coding" 3 (by decide)⟩

/-! ## Values stored by `UnmarshalJSONHelper` -/

theorem unmarshalJSONHelper_ok {K : Type} [Inhabited K] (md : Metadata K) (b : List Byte)
    (old : K) (hok : (md.UnmarshalJSONHelper b old).2 = none) :
    ∃ s, fromStringLoop s (rangeOf md.getJSONStrings) = ((md.UnmarshalJSONHelper b old).1, true) := by
  unfold Metadata.UnmarshalJSONHelper at hok ⊢
  split
  · rename_i hj
    rw [hj] at hok
    simp at hok
  · rename_i representation hj
    split
    · rename_i hfrom
      rw [hj] at hok
      simp [hfrom] at hok
    · rename_i value hfrom
      exact ⟨representation, hfrom⟩

theorem validate_none_effective_keys (md : Metadata T) (hvalid : md.Validate = none) (v : T) :
    IsKey md.getStrings v ↔ IsKey md.getJSONStrings v := by
  unfold Metadata.getStrings Metadata.getJSONStrings
  by_cases hs : md.Strings.isSome = true
  · by_cases hj : md.JSONStrings.isSome = true
    · rw [if_pos hs, if_pos hj]
      exact validate_none_keys md hvalid hs hj v
    · rw [if_pos hs, if_neg hj]
  · by_cases hj : md.JSONStrings.isSome = true
    · rw [if_neg hs, if_pos hj]
    · rw [if_neg hs, if_neg hj]
      have h1 : md.Strings = none := by simpa using hs
      have h2 : md.JSONStrings = none := by simpa using hj
      rw [h1, h2]

/-- C21. On a `Metadata` that passes `Validate`, when `UnmarshalJSONHelper`
returns a nil error the value it stored satisfies `IsValidHelper`, and
`MarshalJSONHelper` returns a nil error on it. -/
theorem unmarshal_stores_valid [Inhabited T] [GoSyntax T] (md : Metadata T)
    (hvalid : md.Validate = none) (b : List Byte) (old : T)
    (hok : (md.UnmarshalJSONHelper b old).2 = none) :
    md.IsValidHelper (md.UnmarshalJSONHelper b old).1 = true ∧
      (md.MarshalJSONHelper (md.UnmarshalJSONHelper b old).1).2 = none := by
  obtain ⟨s, hfrom⟩ := unmarshalJSONHelper_ok md b old hok
  have hmem := fromStringLoop_true s (rangeOf md.getJSONStrings) _ hfrom
  have hkey : IsKey md.getJSONStrings (md.UnmarshalJSONHelper b old).1 :=
    (isKey_iff_lookup _ _).mpr ⟨s, (lookup_eq_some_iff _ _ s).mpr hmem⟩
  exact ⟨(lookup_isSome_iff _ _).mpr ((validate_none_effective_keys md hvalid _).mpr hkey),
    (marshalJSONHelper_ok_iff md _).mpr hkey⟩

/-- Witness of C21: the bytes of `"Coding"` on `metaGopherState`, which passes
`Validate`, with 0 in the output location; the value stored is 3. -/
theorem unmarshal_stores_valid_witness :
    metaGopherState.UnmarshalJSONHelper codingBytes 0 = (3, none) ∧
      metaGopherState.IsValidHelper (metaGopherState.UnmarshalJSONHelper codingBytes 0).1 = true ∧
      (metaGopherState.MarshalJSONHelper
        (metaGopherState.UnmarshalJSONHelper codingBytes 0).1).2 = none :=
  ⟨by decide, unmarshal_stores_valid metaGopherState (by decide) codingBytes 0 (by decide)⟩

end GoConstants
